import Mathlib

/-!
# Ready-to-run list removal (sched/sched/sched_removereadytorun.c)

A shallow embedding of the two build variants of sched_removereadytorun
(uniprocessor and SMP) over an explicit TCB store: task control blocks are
addressed by natural numbers, the flink and blink fields are optional
addresses, and every queue is a head/tail pair of optional addresses.
-/

namespace NuttX

/-! ## Data model -/

/-- Modelled from the spec: the task_state enumeration is declared in a header
that is not among the sources.  The spec names READY, RUNNING, INVALID and the
assignment state used only in SMP. -/
inductive tstate_e where
  | TSTATE_TASK_INVALID
  | TSTATE_TASK_READYTORUN
  | TSTATE_TASK_ASSIGNED
  | TSTATE_TASK_RUNNING
deriving DecidableEq, Repr

open tstate_e

/-- Modelled from the spec: struct tcb_s is declared in a header that is not
among the sources.  Only the fields read or written by sched_removereadytorun
are kept: the two intrusive links, the state, the processor the task is
assigned to, and the two lock counters. -/
structure tcb_s where
  flink : Option Nat
  blink : Option Nat
  task_state : tstate_e
  cpu : Nat
  lockcount : Nat
  irqcount : Nat
deriving DecidableEq, Repr

/-- Modelled from the spec: dq_queue_t of queue.h, a doubly linked queue
header holding the address of the first and of the last entry. -/
structure dq_queue_t where
  head : Option Nat
  tail : Option Nat
deriving DecidableEq, Repr

/-- Store to the flink field of the TCB at address p. -/
def set_flink (m : Nat → tcb_s) (p : Nat) (v : Option Nat) : Nat → tcb_s :=
  fun a => if a = p then { m a with flink := v } else m a

/-- Store to the blink field of the TCB at address p. -/
def set_blink (m : Nat → tcb_s) (p : Nat) (v : Option Nat) : Nat → tcb_s :=
  fun a => if a = p then { m a with blink := v } else m a

/-- Store to the task_state field of the TCB at address p. -/
def set_task_state (m : Nat → tcb_s) (p : Nat) (v : tstate_e) : Nat → tcb_s :=
  fun a => if a = p then { m a with task_state := v } else m a

/-- Modelled from the spec: dq_rem of the queue library is not among the
sources; the spec only says that it unlinks the entry from the list.  This is
the pointer algorithm of an intrusive doubly linked queue: the predecessor
(or the queue head when there is none) is pointed at the successor, the
successor (or the queue tail when there is none) is pointed back at the
predecessor, and both links of the removed entry are cleared. -/
def dq_rem (node : Nat) (m : Nat → tcb_s) (queue : dq_queue_t) :
    (Nat → tcb_s) × dq_queue_t :=
  let prev := (m node).blink
  let next := (m node).flink
  let r1 : (Nat → tcb_s) × dq_queue_t :=
    match prev with
    | none => (m, { queue with head := next })
    | some p => (set_flink m p next, queue)
  let r2 : (Nat → tcb_s) × dq_queue_t :=
    match next with
    | none => (r1.1, { r1.2 with tail := prev })
    | some n => (set_blink r1.1 n prev, r1.2)
  (set_blink (set_flink r2.1 node none) node none, r2.2)

/-- Identity of a task list in the SMP build: the unassigned ready list
g_readytorun or the assigned list g_assignedtasks[cpu] of one processor. -/
inductive tasklist_t where
  | readytorun
  | assigned (cpu : Nat)
deriving DecidableEq, Repr

/-- The effects a call performs, in program order.  Calls to the external
collaborators (up_cpu_pause, up_cpu_resume, sched_note_switch) and the
mutations of scheduler state are both recorded. -/
inductive sched_event where
  | cpu_pause (cpu : Nat)
  | cpu_resume (cpu : Nat)
  | note_switch (fromtcb totcb : Nat)
  | lockset_setbit (cpu : Nat)
  | lockset_clrbit (cpu : Nat)
  | irqset_setbit (cpu : Nat)
  | state_store (tcb : Nat) (st : tstate_e)
  | unlink (tcb : Nat) (list : tasklist_t)
deriving DecidableEq, Repr

/-! ## Uniprocessor variant -/

/-- Scheduler state of the uniprocessor build: the TCB store, the single
ready-to-run list and the effects performed so far. -/
structure up_state where
  tcb : Nat → tcb_s
  g_readytorun : dq_queue_t
  trace : List sched_event

namespace UP

/-- The instrumentation hook sched_note_switch(from, to): an external
collaborator, recorded as an effect. -/
def sched_note_switch (fromtcb totcb : Nat) (s : up_state) : up_state :=
  { s with trace := s.trace ++ [sched_event.note_switch fromtcb totcb] }

/-- The assignment tcb->task_state = st. -/
def store_task_state (t : Nat) (st : tstate_e) (s : up_state) : up_state :=
  { s with tcb := set_task_state s.tcb t st,
           trace := s.trace ++ [sched_event.state_store t st] }

/-- The call dq_rem(rtcb, &g_readytorun). -/
def remove_from_list (rtcb : Nat) (s : up_state) : up_state :=
  { s with tcb := (dq_rem rtcb s.tcb s.g_readytorun).1,
           g_readytorun := (dq_rem rtcb s.tcb s.g_readytorun).2,
           trace := s.trace ++ [sched_event.unlink rtcb tasklist_t.readytorun] }

/-- Lines 104 to 113: unlink the TCB, mark it invalid, return doswitch. -/
def finish (rtcb : Nat) (doswitch : Bool) (s : up_state) : Bool × up_state :=
  (doswitch, store_task_state rtcb TSTATE_TASK_INVALID (remove_from_list rtcb s))

/-- The uniprocessor sched_removereadytorun (lines 78 to 114).  The result
none stands for the DEBUGASSERT(ntcb != NULL) firing. -/
def sched_removereadytorun (rtcb : Nat) (s : up_state) : Option (Bool × up_state) :=
  if (s.tcb rtcb).blink = none then
    match (s.tcb rtcb).flink with
    | none => none
    | some ntcb =>
      some (finish rtcb true
        (store_task_state ntcb TSTATE_TASK_RUNNING (sched_note_switch rtcb ntcb s)))
  else
    some (finish rtcb false s)

end UP

/-! ## SMP variant -/

/-- Modelled from the spec: spin_setbit is not among the sources.  It adds a
processor to a bitset and recomputes the aggregate flag (true iff the bitset
is non-empty).  The bitset is a natural number used as a bit mask; the
guarding spinlock is taken and released inside and is not represented. -/
def spin_setbit (set : Nat) (cpu : Nat) : Nat × Bool :=
  (set ||| (1 <<< cpu), true)

/-- Modelled from the spec: spin_clrbit is not among the sources.  It removes
a processor from a bitset (set and-not (1 shifted by cpu), written with xor
because a natural number has no complement) and recomputes the aggregate
flag (true iff the bitset is non-empty). -/
def spin_clrbit (set : Nat) (cpu : Nat) : Nat × Bool :=
  (set ^^^ (set &&& (1 <<< cpu)), decide (set ^^^ (set &&& (1 <<< cpu)) ≠ 0))

/-- Membership of a processor in a bitset. -/
def cpu_isset (set : Nat) (cpu : Nat) : Bool := Nat.testBit set cpu

/-- Scheduler state of the SMP build: the TCB store, the unassigned ready
list, one assigned list per processor, the two lock bitsets with their
aggregate flags, and the effects performed so far. -/
structure smp_state where
  tcb : Nat → tcb_s
  g_readytorun : dq_queue_t
  g_assignedtasks : Nat → dq_queue_t
  g_cpu_lockset : Nat
  g_cpu_schedlock : Bool
  g_cpu_irqset : Nat
  g_cpu_irqlock : Bool
  trace : List sched_event

namespace SMP

/-- Modelled from the spec: the TLIST_ISRUNNABLE attribute lookup is not among
the sources.  Only an assigned list is runnable, and a task lies on an
assigned list exactly when its state carries a processor assignment. -/
def TLIST_ISRUNNABLE (st : tstate_e) : Bool :=
  match st with
  | TSTATE_TASK_ASSIGNED => true
  | TSTATE_TASK_RUNNING => true
  | _ => false

/-- Modelled from the spec: the TLIST_HEAD lookup is not among the sources.
The owning list is the assigned list of cpu when the task has a processor
assignment and the unassigned ready list otherwise. -/
def TLIST_HEAD (st : tstate_e) (cpu : Nat) : tasklist_t :=
  if TLIST_ISRUNNABLE st = true then tasklist_t.assigned cpu else tasklist_t.readytorun

/-- The call up_cpu_pause(cpu), an external collaborator assumed to succeed. -/
def up_cpu_pause (cpu : Nat) (s : smp_state) : smp_state :=
  { s with trace := s.trace ++ [sched_event.cpu_pause cpu] }

/-- The call up_cpu_resume(cpu), an external collaborator assumed to succeed. -/
def up_cpu_resume (cpu : Nat) (s : smp_state) : smp_state :=
  { s with trace := s.trace ++ [sched_event.cpu_resume cpu] }

/-- The instrumentation hook sched_note_switch(from, to). -/
def sched_note_switch (fromtcb totcb : Nat) (s : smp_state) : smp_state :=
  { s with trace := s.trace ++ [sched_event.note_switch fromtcb totcb] }

/-- The call spin_setbit(&g_cpu_lockset, cpu, &g_cpu_locksetlock, &g_cpu_schedlock). -/
def lockset_setbit (cpu : Nat) (s : smp_state) : smp_state :=
  { s with g_cpu_lockset := (spin_setbit s.g_cpu_lockset cpu).1,
           g_cpu_schedlock := (spin_setbit s.g_cpu_lockset cpu).2,
           trace := s.trace ++ [sched_event.lockset_setbit cpu] }

/-- The call spin_clrbit(&g_cpu_lockset, cpu, &g_cpu_locksetlock, &g_cpu_schedlock). -/
def lockset_clrbit (cpu : Nat) (s : smp_state) : smp_state :=
  { s with g_cpu_lockset := (spin_clrbit s.g_cpu_lockset cpu).1,
           g_cpu_schedlock := (spin_clrbit s.g_cpu_lockset cpu).2,
           trace := s.trace ++ [sched_event.lockset_clrbit cpu] }

/-- The call spin_setbit(&g_cpu_irqset, cpu, &g_cpu_irqsetlock, &g_cpu_irqlock). -/
def irqset_setbit (cpu : Nat) (s : smp_state) : smp_state :=
  { s with g_cpu_irqset := (spin_setbit s.g_cpu_irqset cpu).1,
           g_cpu_irqlock := (spin_setbit s.g_cpu_irqset cpu).2,
           trace := s.trace ++ [sched_event.irqset_setbit cpu] }

/-- The assignment tcb->task_state = st. -/
def store_task_state (t : Nat) (st : tstate_e) (s : smp_state) : smp_state :=
  { s with tcb := set_task_state s.tcb t st,
           trace := s.trace ++ [sched_event.state_store t st] }

/-- The queue header a task list identity stands for. -/
def tasklist_queue (s : smp_state) (tl : tasklist_t) : dq_queue_t :=
  match tl with
  | tasklist_t.readytorun => s.g_readytorun
  | tasklist_t.assigned c => s.g_assignedtasks c

/-- The call dq_rem(rtcb, tasklist). -/
def remove_from_list (rtcb : Nat) (tl : tasklist_t) (s : smp_state) : smp_state :=
  match tl with
  | tasklist_t.readytorun =>
    { s with tcb := (dq_rem rtcb s.tcb s.g_readytorun).1,
             g_readytorun := (dq_rem rtcb s.tcb s.g_readytorun).2,
             trace := s.trace ++ [sched_event.unlink rtcb tl] }
  | tasklist_t.assigned c =>
    { s with tcb := (dq_rem rtcb s.tcb (s.g_assignedtasks c)).1,
             g_assignedtasks := fun d =>
               if d = c then (dq_rem rtcb s.tcb (s.g_assignedtasks c)).2
               else s.g_assignedtasks d,
             trace := s.trace ++ [sched_event.unlink rtcb tl] }

/-- Lines 183 to 251: the body of the switch branch once ntcb is known.  The
else branch of the irqcount test calls spin_setbit, as the source does. -/
def switch_branch (me cpu rtcb ntcb : Nat) (tasklist : tasklist_t) (s : smp_state) :
    Bool × smp_state :=
  let s1 := if cpu ≠ me then up_cpu_pause cpu s else s
  let s2 := if (s1.tcb ntcb).lockcount > 0 then lockset_setbit cpu s1
            else lockset_clrbit cpu s1
  let s3 := if (s2.tcb ntcb).irqcount > 0 then irqset_setbit cpu s2
            else irqset_setbit cpu s2
  let s4 := sched_note_switch rtcb ntcb s3
  let s5 := store_task_state ntcb TSTATE_TASK_RUNNING s4
  let s6 := remove_from_list rtcb tasklist s5
  if cpu ≠ me then (false, up_cpu_resume cpu s6) else (true, s6)

/-- The SMP sched_removereadytorun (lines 140 to 267), run on processor me
(the value of this_cpu()).  The result none stands for the
DEBUGASSERT(ntcb != NULL) firing. -/
def sched_removereadytorun (me : Nat) (rtcb : Nat) (s : smp_state) :
    Option (Bool × smp_state) :=
  let cpu := (s.tcb rtcb).cpu
  let tasklist := TLIST_HEAD (s.tcb rtcb).task_state cpu
  if (s.tcb rtcb).blink = none ∧ TLIST_ISRUNNABLE (s.tcb rtcb).task_state = true then
    match (s.tcb rtcb).flink with
    | none => none
    | some ntcb =>
      let r := switch_branch me cpu rtcb ntcb tasklist s
      some (r.1, store_task_state rtcb TSTATE_TASK_INVALID r.2)
  else
    some (false, store_task_state rtcb TSTATE_TASK_INVALID
      (remove_from_list rtcb tasklist s))

end SMP

/-! ## Abstract view of a queue -/

/-- Successor of x in the sequence l, if any. -/
def dq_next : List Nat → Nat → Option Nat
  | a :: b :: rest, x => if x = a then some b else dq_next (b :: rest) x
  | _, _ => none

/-- Predecessor of x in the sequence l, if any. -/
def dq_prev : List Nat → Nat → Option Nat
  | a :: b :: rest, x => if x = b then some a else dq_prev (b :: rest) x
  | _, _ => none

/-- The queue header q and the links stored in m represent exactly the
sequence l: no address occurs twice, head and tail are the first and last
entry, and each entry is linked forward to its successor and backward to its
predecessor (none at the two ends). -/
def dq_wf (m : Nat → tcb_s) (q : dq_queue_t) (l : List Nat) : Prop :=
  l.Nodup ∧ q.head = l.head? ∧ q.tail = l.getLast? ∧
    ∀ x ∈ l, (m x).flink = dq_next l x ∧ (m x).blink = dq_prev l x

instance (m : Nat → tcb_s) (q : dq_queue_t) (l : List Nat) : Decidable (dq_wf m q l) := by
  unfold dq_wf; infer_instance

/-- The addresses met when following flink from p, at most fuel of them. -/
def dq_walk (m : Nat → tcb_s) : Nat → Option Nat → List Nat
  | 0, _ => []
  | _ + 1, none => []
  | fuel + 1, some x => x :: dq_walk m fuel (m x).flink

/-- Well-formed uniprocessor state: g_readytorun represents the sequence l. -/
def up_wf (s : up_state) (l : List Nat) : Prop :=
  dq_wf s.tcb s.g_readytorun l

instance (s : up_state) (l : List Nat) : Decidable (up_wf s l) := by
  unfold up_wf; infer_instance

/-- Well-formed SMP state with n processors: g_readytorun represents lr, each
g_assignedtasks[c] represents la c, no task lies on two lists, and the
task_state and cpu fields of every listed TCB name the list that holds it. -/
def smp_wf (n : Nat) (s : smp_state) (lr : List Nat) (la : Nat → List Nat) : Prop :=
  dq_wf s.tcb s.g_readytorun lr ∧
  (∀ c < n, dq_wf s.tcb (s.g_assignedtasks c) (la c)) ∧
  (∀ c < n, ∀ x ∈ la c, x ∉ lr) ∧
  (∀ c < n, ∀ d < n, ∀ x ∈ la c, x ∈ la d → c = d) ∧
  (∀ x ∈ lr, SMP.TLIST_HEAD (s.tcb x).task_state (s.tcb x).cpu = tasklist_t.readytorun) ∧
  (∀ c < n, ∀ x ∈ la c,
    SMP.TLIST_HEAD (s.tcb x).task_state (s.tcb x).cpu = tasklist_t.assigned c)

instance (n : Nat) (s : smp_state) (lr : List Nat) (la : Nat → List Nat) :
    Decidable (smp_wf n s lr la) := by
  unfold smp_wf; infer_instance

/-- Task t lies on the list tl of the layout (lr, la) of an n-processor state. -/
def listed (n : Nat) (lr : List Nat) (la : Nat → List Nat) (tl : tasklist_t) (t : Nat) :
    Prop :=
  match tl with
  | tasklist_t.readytorun => t ∈ lr
  | tasklist_t.assigned c => c < n ∧ t ∈ la c

instance (n : Nat) (lr : List Nat) (la : Nat → List Nat) (tl : tasklist_t) (t : Nat) :
    Decidable (listed n lr la tl t) := by
  unfold listed; cases tl <;> infer_instance

/-- The assigned lists of a layout after task t has been erased. -/
def erase_assigned (la : Nat → List Nat) (t : Nat) : Nat → List Nat :=
  fun d => (la d).erase t

/-- The sequence a layout assigns to a task list identity. -/
def layout_list (lr : List Nat) (la : Nat → List Nat) (tl : tasklist_t) : List Nat :=
  match tl with
  | tasklist_t.readytorun => lr
  | tasklist_t.assigned c => la c

/-! ## Sequences of calls and invariants -/

/-- A uniprocessor run: the calls on the tasks of the sequence, one after the
other.  The result is none as soon as one call fires its assertion. -/
def UP.run : List Nat → up_state → Option up_state
  | [], s => some s
  | t :: ts, s =>
    match UP.sched_removereadytorun t s with
    | none => none
    | some r => UP.run ts r.2

/-- An SMP run: each call is a pair (calling processor, task). -/
def SMP.run : List (Nat × Nat) → smp_state → Option smp_state
  | [], s => some s
  | c :: cs, s =>
    match SMP.sched_removereadytorun c.1 c.2 s with
    | none => none
    | some r => SMP.run cs r.2

/-- The sequence l after the tasks of ts have been erased one by one. -/
def erase_seq : List Nat → List Nat → List Nat
  | l, [] => l
  | l, t :: ts => erase_seq (l.erase t) ts

/-- The tasks of ts can be removed from l in that order: each is on the list
when its turn comes and none is an idle task. -/
def up_removable (isidle : Nat → Bool) : List Nat → List Nat → Prop
  | _, [] => True
  | l, t :: ts => t ∈ l ∧ isidle t = false ∧ up_removable isidle (l.erase t) ts

/-- The calls of cs can be made in that order on an n-processor layout: each
task is on a ready or assigned list when its turn comes and none is an idle
task. -/
def smp_removable (n : Nat) (isidle : Nat → Bool) :
    List Nat → (Nat → List Nat) → List (Nat × Nat) → Prop
  | _, _, [] => True
  | lr, la, c :: cs =>
    (c.2 ∈ lr ∨ ∃ d < n, c.2 ∈ la d) ∧ isidle c.2 = false ∧
      smp_removable n isidle (lr.erase c.2) (erase_assigned la c.2) cs

/-- Uniprocessor membership/state invariant: the ready list is well formed
and a listed task is RUNNING exactly when it is the head. -/
def up_inv (s : up_state) (l : List Nat) : Prop :=
  up_wf s l ∧
  ∀ x ∈ l, ((s.tcb x).task_state = TSTATE_TASK_RUNNING ↔ l.head? = some x)

instance (s : up_state) (l : List Nat) : Decidable (up_inv s l) := by
  unfold up_inv; infer_instance

/-- SMP membership/state invariant: the state is well formed (each task on
exactly one list), no task of the unassigned list is RUNNING, and a task of
an assigned list is RUNNING exactly when it is the head of that list. -/
def smp_inv (n : Nat) (s : smp_state) (lr : List Nat) (la : Nat → List Nat) : Prop :=
  smp_wf n s lr la ∧
  (∀ x ∈ lr, (s.tcb x).task_state ≠ TSTATE_TASK_RUNNING) ∧
  (∀ c < n, ∀ x ∈ la c,
    ((s.tcb x).task_state = TSTATE_TASK_RUNNING ↔ (la c).head? = some x))

instance (n : Nat) (s : smp_state) (lr : List Nat) (la : Nat → List Nat) :
    Decidable (smp_inv n s lr la) := by
  unfold smp_inv; infer_instance

/-! ## Points of a call and its effects -/

/-- The successive states of the switch branch (lines 183 to 251), one after
each statement: the entry state, then the states after the conditional
pause, the lockset update, the irqset update, the trace record, the store of
RUNNING, the unlink and the conditional resume.  A skipped statement repeats
the state. -/
def SMP.switch_points (me cpu rtcb ntcb : Nat) (tasklist : tasklist_t) (s : smp_state) :
    List smp_state :=
  let s1 := if cpu ≠ me then SMP.up_cpu_pause cpu s else s
  let s2 := if (s1.tcb ntcb).lockcount > 0 then SMP.lockset_setbit cpu s1
            else SMP.lockset_clrbit cpu s1
  let s3 := if (s2.tcb ntcb).irqcount > 0 then SMP.irqset_setbit cpu s2
            else SMP.irqset_setbit cpu s2
  let s4 := SMP.sched_note_switch rtcb ntcb s3
  let s5 := SMP.store_task_state ntcb TSTATE_TASK_RUNNING s4
  let s6 := SMP.remove_from_list rtcb tasklist s5
  let s7 := if cpu ≠ me then SMP.up_cpu_resume cpu s6 else s6
  [s, s1, s2, s3, s4, s5, s6, s7]

/-- The successive states of a whole SMP call, entry state first.  In the
switch branch these are the points of the branch followed by the state after
the final store of INVALID; in the plain branch the entry state, the state
after the unlink and the state after the final store; when the assertion
fires only the entry state. -/
def SMP.call_points (me : Nat) (rtcb : Nat) (s : smp_state) : List smp_state :=
  let cpu := (s.tcb rtcb).cpu
  let tasklist := SMP.TLIST_HEAD (s.tcb rtcb).task_state cpu
  if (s.tcb rtcb).blink = none ∧ SMP.TLIST_ISRUNNABLE (s.tcb rtcb).task_state = true then
    match (s.tcb rtcb).flink with
    | none => [s]
    | some ntcb =>
      SMP.switch_points me cpu rtcb ntcb tasklist s ++
        [SMP.store_task_state rtcb TSTATE_TASK_INVALID
          (SMP.switch_branch me cpu rtcb ntcb tasklist s).2]
  else
    [s, SMP.remove_from_list rtcb tasklist s,
      SMP.store_task_state rtcb TSTATE_TASK_INVALID (SMP.remove_from_list rtcb tasklist s)]

/-- Whether processor cpu is paused after the effects evs: it is once a pause
of cpu has been issued and until a resume of cpu follows. -/
def cpu_paused (cpu : Nat) (evs : List sched_event) : Bool :=
  evs.foldl (fun p e =>
    if e = sched_event.cpu_pause cpu then true
    else if e = sched_event.cpu_resume cpu then false
    else p) false

/-- The switch trace records among the effects evs, as (from, to) pairs. -/
def switch_notes : List sched_event → List (Nat × Nat)
  | [] => []
  | sched_event.note_switch a b :: evs => (a, b) :: switch_notes evs
  | _ :: evs => switch_notes evs

/-- The effects a call appended to the trace old, given the trace after it. -/
def new_events (old new : List sched_event) : List sched_event :=
  new.drop old.length

/-! ## Example states -/

/-- An empty TCB, not on any list. -/
def tcb_unused : tcb_s :=
  { flink := none, blink := none, task_state := TSTATE_TASK_INVALID,
    cpu := 0, lockcount := 0, irqcount := 0 }

/-- TCB store for the ready list [A, B, C, idle] of the spec, with A, B, C
and idle at addresses 1, 2, 3 and 4. -/
def ex_tcb_abci : Nat → tcb_s := fun a =>
  if a = 1 then { tcb_unused with flink := some 2, task_state := TSTATE_TASK_RUNNING }
  else if a = 2 then
    { tcb_unused with flink := some 3, blink := some 1, task_state := TSTATE_TASK_READYTORUN }
  else if a = 3 then
    { tcb_unused with flink := some 4, blink := some 2, task_state := TSTATE_TASK_READYTORUN }
  else if a = 4 then
    { tcb_unused with blink := some 3, task_state := TSTATE_TASK_READYTORUN }
  else tcb_unused

/-- Uniprocessor state whose ready list is [A(running), B, C, idle]. -/
def ex_up_abci : up_state :=
  { tcb := ex_tcb_abci, g_readytorun := { head := some 1, tail := some 4 }, trace := [] }

/-- TCB store for the ready list [B, C, idle], with B, C and idle at
addresses 2, 3 and 4. -/
def ex_tcb_bci : Nat → tcb_s := fun a =>
  if a = 2 then { tcb_unused with flink := some 3, task_state := TSTATE_TASK_RUNNING }
  else if a = 3 then
    { tcb_unused with flink := some 4, blink := some 2, task_state := TSTATE_TASK_READYTORUN }
  else if a = 4 then
    { tcb_unused with blink := some 3, task_state := TSTATE_TASK_READYTORUN }
  else tcb_unused

/-- Uniprocessor state whose ready list is [B(running), C, idle]. -/
def ex_up_bci : up_state :=
  { tcb := ex_tcb_bci, g_readytorun := { head := some 2, tail := some 4 }, trace := [] }

/-- TCB store of a two-processor example: processor 0 runs task 10 ahead of
11 and its idle task 12, processor 1 runs task 20 ahead of its idle task 21,
and tasks 30 and 31 wait unassigned.  Task 11 holds the scheduler lock only,
task 21 holds the interrupt lock only. -/
def ex_smp_tcb : Nat → tcb_s := fun a =>
  if a = 10 then
    { tcb_unused with flink := some 11, task_state := TSTATE_TASK_RUNNING }
  else if a = 11 then
    { tcb_unused with flink := some 12, blink := some 10,
                      task_state := TSTATE_TASK_ASSIGNED, lockcount := 1 }
  else if a = 12 then
    { tcb_unused with blink := some 11, task_state := TSTATE_TASK_ASSIGNED }
  else if a = 20 then
    { tcb_unused with flink := some 21, task_state := TSTATE_TASK_RUNNING, cpu := 1 }
  else if a = 21 then
    { tcb_unused with blink := some 20, task_state := TSTATE_TASK_ASSIGNED, cpu := 1,
                      irqcount := 2 }
  else if a = 30 then
    { tcb_unused with flink := some 31, task_state := TSTATE_TASK_READYTORUN }
  else if a = 31 then
    { tcb_unused with blink := some 30, task_state := TSTATE_TASK_READYTORUN }
  else tcb_unused

/-- Two-processor example state over ex_smp_tcb.  Processor 1 is in the
scheduler-lock holder set, the interrupt-lock holder set is empty. -/
def ex_smp : smp_state :=
  { tcb := ex_smp_tcb,
    g_readytorun := { head := some 30, tail := some 31 },
    g_assignedtasks := fun c =>
      if c = 0 then { head := some 10, tail := some 12 }
      else if c = 1 then { head := some 20, tail := some 21 }
      else { head := none, tail := none },
    g_cpu_lockset := 2,
    g_cpu_schedlock := true,
    g_cpu_irqset := 0,
    g_cpu_irqlock := false,
    trace := [] }

/-- Assigned lists of ex_smp. -/
def ex_smp_la : Nat → List Nat := fun c =>
  if c = 0 then [10, 11, 12] else if c = 1 then [20, 21] else []

/-- Idle tasks of the example states: task 4 of the uniprocessor examples,
tasks 12 and 21 of the two processors, and task 31, which plays the part of
the idle task on the unassigned list. -/
def ex_isidle : Nat → Bool := fun a => a == 4 || a == 12 || a == 21 || a == 31

/-- Uniprocessor state whose ready list holds the idle task 4 alone. -/
def ex_up_sole : up_state :=
  { tcb := fun a =>
      if a = 4 then { tcb_unused with task_state := TSTATE_TASK_RUNNING } else tcb_unused,
    g_readytorun := { head := some 4, tail := some 4 }, trace := [] }

/-- SMP state in which the assigned list of processor 1 holds its idle task
21 alone; every other list is empty. -/
def ex_smp_sole : smp_state :=
  { tcb := fun a =>
      if a = 21 then { tcb_unused with task_state := TSTATE_TASK_RUNNING, cpu := 1 }
      else tcb_unused,
    g_readytorun := { head := none, tail := none },
    g_assignedtasks := fun c =>
      if c = 1 then { head := some 21, tail := some 21 } else { head := none, tail := none },
    g_cpu_lockset := 0,
    g_cpu_schedlock := false,
    g_cpu_irqset := 0,
    g_cpu_irqlock := false,
    trace := [] }

/-- Uniprocessor state over the TCB store of ex_smp whose ready list is the
assigned list of processor 0. -/
def ex_up_of_smp : up_state :=
  { tcb := ex_smp.tcb, g_readytorun := ex_smp.g_assignedtasks 0, trace := [] }

/-! ## Sequence lemmas -/

theorem dq_next_cons (a : Nat) (l : List Nat) (x : Nat) :
    dq_next (a :: l) x = if x = a then l.head? else dq_next l x := by
  cases l with
  | nil => simp [dq_next]
  | cons b rest => simp [dq_next]

theorem dq_prev_cons (a : Nat) (l : List Nat) (x : Nat) :
    dq_prev (a :: l) x = if l.head? = some x then some a else dq_prev l x := by
  cases l with
  | nil => simp [dq_prev]
  | cons b rest =>
    simp only [dq_prev, List.head?_cons, Option.some.injEq]
    by_cases h : x = b
    · simp [h]
    · have h2 : ¬ b = x := fun e => h e.symm
      simp [h, h2]

theorem dq_next_nil (x : Nat) : dq_next [] x = none := by simp [dq_next]

theorem dq_prev_nil (x : Nat) : dq_prev [] x = none := by simp [dq_prev]

theorem head?_mem_of_eq {l : List Nat} {y : Nat} (h : l.head? = some y) : y ∈ l := by
  cases l with
  | nil => simp at h
  | cons a t => simp at h; simp [h]

theorem dq_next_mem {l : List Nat} {x y : Nat} (h : dq_next l x = some y) :
    x ∈ l ∧ y ∈ l := by
  induction l with
  | nil => simp [dq_next_nil] at h
  | cons a t ih =>
    rw [dq_next_cons] at h
    by_cases hx : x = a
    · rw [if_pos hx] at h
      exact ⟨by simp [hx], List.mem_cons_of_mem _ (head?_mem_of_eq h)⟩
    · rw [if_neg hx] at h
      exact ⟨List.mem_cons_of_mem _ (ih h).1, List.mem_cons_of_mem _ (ih h).2⟩

theorem dq_prev_mem {l : List Nat} {x y : Nat} (h : dq_prev l x = some y) :
    x ∈ l ∧ y ∈ l := by
  induction l with
  | nil => simp [dq_prev_nil] at h
  | cons a t ih =>
    rw [dq_prev_cons] at h
    by_cases hx : t.head? = some x
    · rw [if_pos hx] at h
      simp only [Option.some.injEq] at h
      exact ⟨List.mem_cons_of_mem _ (head?_mem_of_eq hx), by simp [h]⟩
    · rw [if_neg hx] at h
      exact ⟨List.mem_cons_of_mem _ (ih h).1, List.mem_cons_of_mem _ (ih h).2⟩

theorem dq_next_eq_none_of_not_mem {l : List Nat} {x : Nat} (h : x ∉ l) :
    dq_next l x = none := by
  cases hn : dq_next l x with
  | none => rfl
  | some y => exact absurd (dq_next_mem hn).1 h

theorem dq_prev_eq_none_of_not_mem {l : List Nat} {x : Nat} (h : x ∉ l) :
    dq_prev l x = none := by
  cases hn : dq_prev l x with
  | none => rfl
  | some y => exact absurd (dq_prev_mem hn).1 h

theorem dq_next_ne_of_not_mem {l : List Nat} {x t : Nat} (h : t ∉ l) :
    dq_next l x ≠ some t := fun e => h (dq_next_mem e).2

theorem dq_prev_ne_of_not_mem {l : List Nat} {x t : Nat} (h : t ∉ l) :
    dq_prev l x ≠ some t := fun e => h (dq_prev_mem e).2

/-- In a duplicate-free sequence, y follows x exactly when x precedes y. -/
theorem dq_next_eq_some_iff_prev {l : List Nat} (hnd : l.Nodup) (x y : Nat) :
    dq_next l x = some y ↔ dq_prev l y = some x := by
  induction l with
  | nil => simp [dq_next_nil, dq_prev_nil]
  | cons a t ih =>
    have hat : a ∉ t := (List.nodup_cons.mp hnd).1
    have hnt : t.Nodup := (List.nodup_cons.mp hnd).2
    rw [dq_next_cons, dq_prev_cons]
    by_cases hx : x = a
    · subst hx
      rw [if_pos rfl]
      by_cases hy : t.head? = some y
      · simp [hy]
      · rw [if_neg hy]
        constructor
        · intro h; exact absurd h hy
        · intro h; exact absurd (dq_prev_mem h).2 hat
    · rw [if_neg hx]
      by_cases hy : t.head? = some y
      · rw [if_pos hy]
        constructor
        · intro h
          have h2 := (ih hnt).mp h
          cases t with
          | nil => simp at hy
          | cons b r =>
            simp only [List.head?_cons, Option.some.injEq] at hy
            subst hy
            rw [dq_prev_cons] at h2
            have hbr : b ∉ r := (List.nodup_cons.mp hnt).1
            by_cases hh : r.head? = some b
            · exact absurd (head?_mem_of_eq hh) hbr
            · rw [if_neg hh] at h2
              exact absurd (dq_prev_mem h2).1 hbr
        · intro h
          simp only [Option.some.injEq] at h
          exact absurd h.symm hx
      · rw [if_neg hy]
        exact ih hnt

/-- The first entry of a duplicate-free sequence has no predecessor. -/
theorem dq_prev_head {a : Nat} {l : List Nat} (hnd : (a :: l).Nodup) :
    dq_prev (a :: l) a = none := by
  have hat : a ∉ l := (List.nodup_cons.mp hnd).1
  rw [dq_prev_cons]
  by_cases hh : l.head? = some a
  · exact absurd (head?_mem_of_eq hh) hat
  · rw [if_neg hh]; exact dq_prev_eq_none_of_not_mem hat

/-- An entry of a duplicate-free sequence has no predecessor exactly when it
is the first one. -/
theorem dq_prev_eq_none_iff {l : List Nat} (hnd : l.Nodup) {t : Nat} (ht : t ∈ l) :
    dq_prev l t = none ↔ l.head? = some t := by
  induction l with
  | nil => simp at ht
  | cons a r ih =>
    have hat : a ∉ r := (List.nodup_cons.mp hnd).1
    have hnr : r.Nodup := (List.nodup_cons.mp hnd).2
    by_cases hta : t = a
    · subst hta
      simp [dq_prev_head hnd]
    · have htr : t ∈ r := by
        rcases List.mem_cons.mp ht with h | h
        · exact absurd h hta
        · exact h
      have hne : ¬ a = t := fun e => hta e.symm
      rw [dq_prev_cons]
      by_cases hh : r.head? = some t
      · simp [hh, hne]
      · rw [if_neg hh]
        simp only [List.head?_cons, Option.some.injEq, hne, iff_false]
        intro hp
        exact hh ((ih hnr htr).mp hp)

/-- An entry of a sequence has no successor exactly when it is the last one. -/
theorem dq_next_eq_none_iff {l : List Nat} (hnd : l.Nodup) {t : Nat} (ht : t ∈ l) :
    dq_next l t = none ↔ l.getLast? = some t := by
  induction l with
  | nil => simp at ht
  | cons a r ih =>
    have hat : a ∉ r := (List.nodup_cons.mp hnd).1
    have hnr : r.Nodup := (List.nodup_cons.mp hnd).2
    rw [dq_next_cons]
    cases r with
    | nil =>
      simp only [List.mem_singleton] at ht
      simp [ht, dq_next_nil]
    | cons b r2 =>
      rw [List.getLast?_cons_cons]
      by_cases hta : t = a
      · subst hta
        simp only [if_true, List.head?_cons]
        constructor
        · intro h; simp at h
        · intro h
          have : t ∈ b :: r2 := List.mem_of_getLast?_eq_some h
          exact absurd this hat
      · have htr : t ∈ b :: r2 := by
          rcases List.mem_cons.mp ht with h | h
          · exact absurd h hta
          · exact h
        rw [if_neg hta]
        exact ih hnr htr

/-- Successor after erasing t: the entry in front of t is relinked to the
successor of t, every other entry keeps its successor. -/
theorem dq_next_erase {l : List Nat} (hnd : l.Nodup) {t x : Nat} (hx : x ≠ t) :
    dq_next (l.erase t) x = if dq_next l x = some t then dq_next l t else dq_next l x := by
  induction l with
  | nil => simp [dq_next_nil]
  | cons a r ih =>
    have hat : a ∉ r := (List.nodup_cons.mp hnd).1
    have hnr : r.Nodup := (List.nodup_cons.mp hnd).2
    by_cases hta : a = t
    · subst hta
      have hxa : ¬ x = a := hx
      rw [List.erase_cons_head, dq_next_cons, if_neg hxa,
        if_neg (dq_next_ne_of_not_mem hat)]
    · have hta2 : ¬ t = a := fun e => hta e.symm
      rw [List.erase_cons_tail (by simpa using hta), dq_next_cons, dq_next_cons a r x,
        dq_next_cons a r t, if_neg hta2, ih hnr]
      by_cases hxa : x = a
      · subst hxa
        simp only [if_true]
        cases r with
        | nil => simp [dq_next_nil]
        | cons b r2 =>
          by_cases hbt : b = t
          · subst hbt
            have hbr : b ∉ r2 := (List.nodup_cons.mp hnr).1
            simp [dq_next_cons]
          · have hbeq : ¬ (b == t) = true := by simpa using hbt
            simp [List.erase_cons_tail hbeq, hbt]
      · simp only [if_neg hxa]

/-- Predecessor after erasing t: the entry behind t is relinked to the
predecessor of t, every other entry keeps its predecessor. -/
theorem dq_prev_erase {l : List Nat} (hnd : l.Nodup) {t x : Nat} (hx : x ≠ t) :
    dq_prev (l.erase t) x = if dq_prev l x = some t then dq_prev l t else dq_prev l x := by
  induction l with
  | nil => simp [dq_prev_nil]
  | cons a r ih =>
    have hat : a ∉ r := (List.nodup_cons.mp hnd).1
    have hnr : r.Nodup := (List.nodup_cons.mp hnd).2
    by_cases hta : a = t
    · subst hta
      rw [List.erase_cons_head, dq_prev_head hnd, dq_prev_cons a r x]
      by_cases hh : r.head? = some x
      · rw [if_pos hh]
        simp only [if_true]
        cases r with
        | nil => simp at hh
        | cons b r2 =>
          simp only [List.head?_cons, Option.some.injEq] at hh
          subst hh
          exact dq_prev_head hnr
      · rw [if_neg hh, if_neg (dq_prev_ne_of_not_mem hat)]
    · have hta2 : ¬ t = a := fun e => hta e.symm
      rw [List.erase_cons_tail (by simpa using hta), dq_prev_cons, dq_prev_cons a r x,
        dq_prev_cons a r t, ih hnr]
      cases r with
      | nil => simp [dq_prev_nil]
      | cons b r2 =>
        have hbr : b ∉ r2 := (List.nodup_cons.mp hnr).1
        have hab : a ≠ b := fun e => hat (by simp [e])
        by_cases hbt : b = t
        · subst hbt
          have hxb : ¬ b = x := fun e => hx e.symm
          rw [List.erase_cons_head, dq_prev_head hnr]
          simp only [List.head?_cons, Option.some.injEq, hxb, if_false, if_true]
          rw [dq_prev_cons b r2 x]
          by_cases hh : r2.head? = some x
          · simp [hh]
          · simp [hh, dq_prev_ne_of_not_mem hbr]
        · have hbt2 : ¬ t = b := fun e => hbt e.symm
          rw [List.erase_cons_tail (by simpa using hbt)]
          simp only [List.head?_cons, Option.some.injEq]
          have hbt3 : ¬ b = t := hbt
          by_cases hbx : b = x
          · subst hbx
            simp [hta, dq_prev_head hnr]
          · simp only [if_neg hbx, if_neg hbt3]

/-- Head of the sequence after erasing t. -/
theorem head?_erase (l : List Nat) (t : Nat) :
    (l.erase t).head? = if l.head? = some t then dq_next l t else l.head? := by
  cases l with
  | nil => simp
  | cons a r =>
    by_cases hta : a = t
    · subst hta
      simp [dq_next_cons]
    · rw [List.erase_cons_tail (by simpa using hta)]
      simp [hta]

/-- Last entry of the sequence after erasing t. -/
theorem getLast?_erase {l : List Nat} (hnd : l.Nodup) (t : Nat) :
    (l.erase t).getLast? = if l.getLast? = some t then dq_prev l t else l.getLast? := by
  induction l with
  | nil => simp
  | cons a r ih =>
    have hat : a ∉ r := (List.nodup_cons.mp hnd).1
    have hnr : r.Nodup := (List.nodup_cons.mp hnd).2
    cases r with
    | nil =>
      by_cases hta : a = t
      · subst hta; simp [dq_prev]
      · rw [List.erase_cons_tail (by simpa using hta)]
        simp [hta]
    | cons b r2 =>
      have hbr : b ∉ r2 := (List.nodup_cons.mp hnr).1
      rw [List.getLast?_cons_cons]
      by_cases hta : a = t
      · subst hta
        rw [List.erase_cons_head, if_neg]
        intro h
        exact hat (List.mem_of_getLast?_eq_some h)
      · rw [List.erase_cons_tail (by simpa using hta)]
        by_cases hbt : b = t
        · subst hbt
          rw [List.erase_cons_head] at ih ⊢
          have ih2 := ih hnr
          cases r2 with
          | nil => simp [dq_prev]
          | cons c r3 =>
            rw [List.getLast?_cons_cons, List.getLast?_cons_cons]
            rw [List.getLast?_cons_cons] at ih2
            have hne : ¬ ((c :: r3).getLast? = some b) := fun h =>
              hbr (List.mem_of_getLast?_eq_some h)
            rw [if_neg hne]
        · rw [List.erase_cons_tail (by simpa using hbt)] at ih ⊢
          rw [List.getLast?_cons_cons, ih hnr, dq_prev_cons a (b :: r2) t]
          have : ¬ ((b :: r2).head? = some t) := by simpa using hbt
          rw [if_neg this]

/-! ## The represented sequence is determined by the store -/

theorem dq_next_append {pre : List Nat} {a : Nat} (suf : List Nat) (h : a ∉ pre) :
    dq_next (pre ++ a :: suf) a = suf.head? := by
  induction pre with
  | nil => simp [dq_next_cons]
  | cons b p ih =>
    have hab : ¬ a = b := fun e => h (by simp [e])
    have hap : a ∉ p := fun e => h (List.mem_cons_of_mem b e)
    rw [List.cons_append, dq_next_cons, if_neg hab]
    exact ih hap

theorem dq_walk_suffix {m : Nat → tcb_s} {l : List Nat} (hnd : l.Nodup)
    (hlinks : ∀ x ∈ l, (m x).flink = dq_next l x) (suf : List Nat) :
    ∀ (pre : List Nat) (fuel : Nat), l = pre ++ suf → suf.length ≤ fuel →
      dq_walk m fuel suf.head? = suf := by
  induction suf with
  | nil =>
    intro pre fuel _ _
    cases fuel <;> simp [dq_walk]
  | cons a r ih =>
    intro pre fuel hl hfuel
    cases fuel with
    | zero => simp at hfuel
    | succ k =>
      have hmem : a ∈ l := by rw [hl]; simp
      have hnp : a ∉ pre := by
        rw [hl] at hnd
        intro e
        exact (List.disjoint_of_nodup_append hnd) e (List.mem_cons_self a r)
      have hfl : (m a).flink = r.head? := by
        rw [hlinks a hmem, hl]
        exact dq_next_append r hnp
      simp only [List.head?_cons, dq_walk, hfl]
      rw [ih (pre ++ [a]) k (by rw [hl]; simp) (by simpa using hfuel)]

/-- Walking a well-formed queue from its head yields the represented sequence. -/
theorem dq_wf_walk {m : Nat → tcb_s} {q : dq_queue_t} {l : List Nat} (h : dq_wf m q l)
    (fuel : Nat) (hfuel : l.length ≤ fuel) : dq_walk m fuel q.head = l := by
  rw [h.2.1]
  exact dq_walk_suffix h.1 (fun x hx => (h.2.2.2 x hx).1) l [] fuel rfl hfuel

/-- A queue represents at most one sequence. -/
theorem dq_wf_unique {m : Nat → tcb_s} {q : dq_queue_t} {l1 l2 : List Nat}
    (h1 : dq_wf m q l1) (h2 : dq_wf m q l2) : l1 = l2 := by
  exact (dq_wf_walk h1 (max l1.length l2.length) (le_max_left _ _)).symm.trans
    (dq_wf_walk h2 (max l1.length l2.length) (le_max_right _ _))

/-! ## The unlink operation on a well-formed queue -/

theorem set_flink_flink (m : Nat → tcb_s) (p : Nat) (v : Option Nat) (x : Nat) :
    (set_flink m p v x).flink = if x = p then v else (m x).flink := by
  unfold set_flink; split <;> simp

theorem set_flink_blink (m : Nat → tcb_s) (p : Nat) (v : Option Nat) (x : Nat) :
    (set_flink m p v x).blink = (m x).blink := by
  unfold set_flink; split <;> simp [*]

theorem set_blink_blink (m : Nat → tcb_s) (p : Nat) (v : Option Nat) (x : Nat) :
    (set_blink m p v x).blink = if x = p then v else (m x).blink := by
  unfold set_blink; split <;> simp

theorem set_blink_flink (m : Nat → tcb_s) (p : Nat) (v : Option Nat) (x : Nat) :
    (set_blink m p v x).flink = (m x).flink := by
  unfold set_blink; split <;> simp [*]

theorem dq_rem_flink (t : Nat) (m : Nat → tcb_s) (q : dq_queue_t) (x : Nat) :
    ((dq_rem t m q).1 x).flink =
      if x = t then none
      else if (m t).blink = some x then (m t).flink else (m x).flink := by
  unfold dq_rem
  by_cases hx : x = t
  · simp [set_blink_flink, set_flink_flink, hx]
  · cases hp : (m t).blink <;> cases hn : (m t).flink <;>
      simp only [set_blink_flink, set_flink_flink, if_neg hx, Option.some.injEq] <;>
      simp [eq_comm]

theorem dq_rem_blink (t : Nat) (m : Nat → tcb_s) (q : dq_queue_t) (x : Nat) :
    ((dq_rem t m q).1 x).blink =
      if x = t then none
      else if (m t).flink = some x then (m t).blink else (m x).blink := by
  unfold dq_rem
  by_cases hx : x = t
  · simp [set_blink_blink, set_flink_blink, hx]
  · cases hp : (m t).blink <;> cases hn : (m t).flink <;>
      simp only [set_blink_blink, set_flink_blink, if_neg hx, Option.some.injEq] <;>
      simp [eq_comm]

theorem dq_rem_head (t : Nat) (m : Nat → tcb_s) (q : dq_queue_t) :
    (dq_rem t m q).2.head = if (m t).blink = none then (m t).flink else q.head := by
  unfold dq_rem
  cases hp : (m t).blink <;> cases hn : (m t).flink <;> simp

theorem dq_rem_tail (t : Nat) (m : Nat → tcb_s) (q : dq_queue_t) :
    (dq_rem t m q).2.tail = if (m t).flink = none then (m t).blink else q.tail := by
  unfold dq_rem
  cases hp : (m t).blink <;> cases hn : (m t).flink <;> simp

theorem set_flink_task_state (m : Nat → tcb_s) (p : Nat) (v : Option Nat) (x : Nat) :
    (set_flink m p v x).task_state = (m x).task_state ∧
    (set_flink m p v x).cpu = (m x).cpu ∧
    (set_flink m p v x).lockcount = (m x).lockcount ∧
    (set_flink m p v x).irqcount = (m x).irqcount := by
  unfold set_flink; split <;> simp

theorem set_blink_task_state (m : Nat → tcb_s) (p : Nat) (v : Option Nat) (x : Nat) :
    (set_blink m p v x).task_state = (m x).task_state ∧
    (set_blink m p v x).cpu = (m x).cpu ∧
    (set_blink m p v x).lockcount = (m x).lockcount ∧
    (set_blink m p v x).irqcount = (m x).irqcount := by
  unfold set_blink; split <;> simp

/-- The unlink operation touches link fields only. -/
theorem dq_rem_fields (t : Nat) (m : Nat → tcb_s) (q : dq_queue_t) (x : Nat) :
    ((dq_rem t m q).1 x).task_state = (m x).task_state ∧
    ((dq_rem t m q).1 x).cpu = (m x).cpu ∧
    ((dq_rem t m q).1 x).lockcount = (m x).lockcount ∧
    ((dq_rem t m q).1 x).irqcount = (m x).irqcount := by
  unfold dq_rem
  cases hp : (m t).blink <;> cases hn : (m t).flink <;>
    simp [set_flink_task_state, set_blink_task_state]

theorem set_task_state_links (m : Nat → tcb_s) (p : Nat) (v : tstate_e) (x : Nat) :
    (set_task_state m p v x).flink = (m x).flink ∧
    (set_task_state m p v x).blink = (m x).blink ∧
    (set_task_state m p v x).cpu = (m x).cpu ∧
    (set_task_state m p v x).lockcount = (m x).lockcount ∧
    (set_task_state m p v x).irqcount = (m x).irqcount := by
  unfold set_task_state; split <;> simp

theorem set_task_state_state (m : Nat → tcb_s) (p : Nat) (v : tstate_e) (x : Nat) :
    (set_task_state m p v x).task_state = if x = p then v else (m x).task_state := by
  unfold set_task_state; split <;> simp

/-- A store to task_state does not disturb the shape of any queue. -/
theorem dq_wf_set_task_state {m : Nat → tcb_s} {q : dq_queue_t} {l : List Nat}
    (p : Nat) (v : tstate_e) (h : dq_wf m q l) : dq_wf (set_task_state m p v) q l := by
  refine ⟨h.1, h.2.1, h.2.2.1, ?_⟩
  intro x hx
  rw [(set_task_state_links m p v x).1, (set_task_state_links m p v x).2.1]
  exact h.2.2.2 x hx

/-- Unlinking an entry of a well-formed queue leaves a well-formed queue that
represents the original sequence with that entry erased. -/
theorem dq_rem_wf {m : Nat → tcb_s} {q : dq_queue_t} {l : List Nat} {t : Nat}
    (h : dq_wf m q l) (ht : t ∈ l) :
    dq_wf (dq_rem t m q).1 (dq_rem t m q).2 (l.erase t) := by
  obtain ⟨hnd, hhead, htail, hlinks⟩ := h
  have hft : (m t).flink = dq_next l t := (hlinks t ht).1
  have hbt : (m t).blink = dq_prev l t := (hlinks t ht).2
  refine ⟨hnd.erase t, ?_, ?_, ?_⟩
  · rw [dq_rem_head, head?_erase, hbt, hft, hhead]
    by_cases hp : dq_prev l t = none
    · rw [if_pos hp, if_pos ((dq_prev_eq_none_iff hnd ht).mp hp)]
    · rw [if_neg hp, if_neg (fun e => hp ((dq_prev_eq_none_iff hnd ht).mpr e))]
  · rw [dq_rem_tail, getLast?_erase hnd, hbt, hft, htail]
    by_cases hp : dq_next l t = none
    · rw [if_pos hp, if_pos ((dq_next_eq_none_iff hnd ht).mp hp)]
    · rw [if_neg hp, if_neg (fun e => hp ((dq_next_eq_none_iff hnd ht).mpr e))]
  · intro x hx
    have hxl : x ∈ l := List.mem_of_mem_erase hx
    have hxt : x ≠ t := fun e => by
      subst e
      exact (List.Nodup.not_mem_erase hnd) hx
    constructor
    · rw [dq_rem_flink, if_neg hxt, dq_next_erase hnd hxt, hbt, hft, (hlinks x hxl).1]
      by_cases hp : dq_prev l t = some x
      · rw [if_pos hp, if_pos ((dq_next_eq_some_iff_prev hnd x t).mpr hp)]
      · rw [if_neg hp, if_neg (fun e => hp ((dq_next_eq_some_iff_prev hnd x t).mp e))]
    · rw [dq_rem_blink, if_neg hxt, dq_prev_erase hnd hxt, hbt, hft, (hlinks x hxl).2]
      by_cases hp : dq_next l t = some x
      · rw [if_pos hp, if_pos ((dq_next_eq_some_iff_prev hnd t x).mp hp)]
      · rw [if_neg hp, if_neg (fun e => hp ((dq_next_eq_some_iff_prev hnd t x).mpr e))]

/-- Unlinking an entry of one queue does not disturb a queue that shares no
entry with it. -/
theorem dq_rem_frame {m : Nat → tcb_s} {q q2 : dq_queue_t} {l l2 : List Nat} {t : Nat}
    (h : dq_wf m q l) (ht : t ∈ l) (h2 : dq_wf m q2 l2) (hdisj : ∀ x ∈ l2, x ∉ l) :
    dq_wf (dq_rem t m q).1 q2 l2 := by
  obtain ⟨hnd, hhead, htail, hlinks⟩ := h
  have hft : (m t).flink = dq_next l t := (hlinks t ht).1
  have hbt : (m t).blink = dq_prev l t := (hlinks t ht).2
  refine ⟨h2.1, h2.2.1, h2.2.2.1, ?_⟩
  intro x hx
  have hxl : x ∉ l := hdisj x hx
  have hxt : x ≠ t := fun e => hxl (e ▸ ht)
  constructor
  · rw [dq_rem_flink, if_neg hxt, hbt, if_neg (dq_prev_ne_of_not_mem hxl)]
    exact (h2.2.2.2 x hx).1
  · rw [dq_rem_blink, if_neg hxt, hft, if_neg (dq_next_ne_of_not_mem hxl)]
    exact (h2.2.2.2 x hx).2

/-! ## Uniprocessor variant: basic facts -/

theorem up_finish_tcb (t : Nat) (b : Bool) (s : up_state) :
    (UP.finish t b s).2.tcb =
      set_task_state (dq_rem t s.tcb s.g_readytorun).1 t TSTATE_TASK_INVALID := rfl

theorem up_finish_queue (t : Nat) (b : Bool) (s : up_state) :
    (UP.finish t b s).2.g_readytorun = (dq_rem t s.tcb s.g_readytorun).2 := rfl

theorem up_finish_wf {s : up_state} {l : List Nat} {t : Nat} (b : Bool)
    (h : up_wf s l) (ht : t ∈ l) : up_wf (UP.finish t b s).2 (l.erase t) := by
  unfold up_wf
  rw [up_finish_tcb, up_finish_queue]
  exact dq_wf_set_task_state _ _ (dq_rem_wf h ht)

theorem up_finish_task_state (t : Nat) (b : Bool) (s : up_state) (x : Nat) :
    ((UP.finish t b s).2.tcb x).task_state =
      if x = t then TSTATE_TASK_INVALID else (s.tcb x).task_state := by
  rw [up_finish_tcb, set_task_state_state, (dq_rem_fields _ _ _ _).1]

/-- The blink of a listed task is none exactly when the task is the head. -/
theorem dq_wf_blink_none_iff {m : Nat → tcb_s} {q : dq_queue_t} {l : List Nat} {t : Nat}
    (h : dq_wf m q l) (ht : t ∈ l) : (m t).blink = none ↔ l.head? = some t := by
  rw [(h.2.2.2 t ht).2]
  exact dq_prev_eq_none_iff h.1 ht

/-- The flink of the head of a list with at least two entries is the second. -/
theorem dq_wf_head_flink {m : Nat → tcb_s} {q : dq_queue_t} {t n : Nat} {rest : List Nat}
    (h : dq_wf m q (t :: n :: rest)) : (m t).flink = some n := by
  rw [(h.2.2.2 t (by simp)).1, dq_next_cons]
  simp

theorem up_mark_running_wf {s : up_state} {l : List Nat} (t n : Nat) (h : up_wf s l) :
    up_wf (UP.store_task_state n TSTATE_TASK_RUNNING (UP.sched_note_switch t n s)) l :=
  dq_wf_set_task_state _ _ h

theorem up_mark_running_state (s : up_state) (t n x : Nat) :
    ((UP.store_task_state n TSTATE_TASK_RUNNING (UP.sched_note_switch t n s)).tcb x).task_state
      = if x = n then TSTATE_TASK_RUNNING else (s.tcb x).task_state :=
  set_task_state_state _ _ _ _

/-- The call on the head of a list with a successor takes the switch branch. -/
theorem up_remove_head_eq {s : up_state} {t n : Nat} {rest : List Nat}
    (hwf : up_wf s (t :: n :: rest)) :
    UP.sched_removereadytorun t s =
      some (UP.finish t true
        (UP.store_task_state n TSTATE_TASK_RUNNING (UP.sched_note_switch t n s))) := by
  have hb : (s.tcb t).blink = none :=
    (dq_wf_blink_none_iff hwf (by simp)).mpr (by simp)
  have hf : (s.tcb t).flink = some n := dq_wf_head_flink hwf
  unfold UP.sched_removereadytorun
  rw [if_pos hb]
  simp only [hf]

/-- The call on a listed task that is not the head takes the plain branch. -/
theorem up_remove_nonhead_eq {s : up_state} {l : List Nat} {t : Nat}
    (hwf : up_wf s l) (ht : t ∈ l) (hnh : l.head? ≠ some t) :
    UP.sched_removereadytorun t s = some (UP.finish t false s) := by
  have hb : ¬ (s.tcb t).blink = none := fun e => hnh ((dq_wf_blink_none_iff hwf ht).mp e)
  unfold UP.sched_removereadytorun
  rw [if_neg hb]

/-! ## SMP variant: basic facts -/

theorem testBit_setbit (x c : Nat) : cpu_isset (spin_setbit x c).1 c = true := by
  simp [cpu_isset, spin_setbit, Nat.testBit_or, Nat.testBit_shiftLeft]

theorem testBit_clrbit (x c : Nat) : cpu_isset (spin_clrbit x c).1 c = false := by
  simp [cpu_isset, spin_clrbit, Nat.testBit_xor, Nat.testBit_and, Nat.testBit_shiftLeft]

theorem TLIST_HEAD_eq_assigned {st : tstate_e} {cpu c : Nat}
    (h : SMP.TLIST_HEAD st cpu = tasklist_t.assigned c) :
    SMP.TLIST_ISRUNNABLE st = true ∧ cpu = c := by
  unfold SMP.TLIST_HEAD at h
  by_cases hr : SMP.TLIST_ISRUNNABLE st = true
  · rw [if_pos hr] at h
    exact ⟨hr, by injection h⟩
  · rw [if_neg hr] at h
    exact absurd h (by simp)

theorem TLIST_HEAD_eq_readytorun {st : tstate_e} {cpu : Nat}
    (h : SMP.TLIST_HEAD st cpu = tasklist_t.readytorun) :
    ¬ SMP.TLIST_ISRUNNABLE st = true := by
  unfold SMP.TLIST_HEAD at h
  intro hr
  rw [if_pos hr] at h
  exact absurd h (by simp)

/-- What the switch branch leaves behind: the return value, the TCB store and
queues (those of marking ntcb RUNNING and unlinking rtcb), and the bitsets. -/
theorem switch_branch_spec (me cpu t nx : Nat) (tl : tasklist_t) (s : smp_state) :
    (SMP.switch_branch me cpu t nx tl s).1 = decide (cpu = me) ∧
    (SMP.switch_branch me cpu t nx tl s).2.tcb =
      (SMP.remove_from_list t tl (SMP.store_task_state nx TSTATE_TASK_RUNNING s)).tcb ∧
    (SMP.switch_branch me cpu t nx tl s).2.g_readytorun =
      (SMP.remove_from_list t tl (SMP.store_task_state nx TSTATE_TASK_RUNNING s)).g_readytorun ∧
    (SMP.switch_branch me cpu t nx tl s).2.g_assignedtasks =
      (SMP.remove_from_list t tl
        (SMP.store_task_state nx TSTATE_TASK_RUNNING s)).g_assignedtasks ∧
    (SMP.switch_branch me cpu t nx tl s).2.g_cpu_lockset =
      (if 0 < (s.tcb nx).lockcount then (spin_setbit s.g_cpu_lockset cpu).1
       else (spin_clrbit s.g_cpu_lockset cpu).1) ∧
    (SMP.switch_branch me cpu t nx tl s).2.g_cpu_irqset =
      (spin_setbit s.g_cpu_irqset cpu).1 := by
  unfold SMP.switch_branch
  by_cases hme : cpu = me <;> by_cases hl : 0 < (s.tcb nx).lockcount <;>
    by_cases hi : 0 < (s.tcb nx).irqcount <;> cases tl <;>
    simp [hme, hl, hi, SMP.up_cpu_pause, SMP.up_cpu_resume, SMP.lockset_setbit,
      SMP.lockset_clrbit, SMP.irqset_setbit, SMP.sched_note_switch, SMP.store_task_state,
      SMP.remove_from_list]

/-- Well-formedness only looks at the TCB store and the queue headers. -/
theorem smp_wf_congr {n : Nat} {s1 s2 : smp_state} {lr : List Nat} {la : Nat → List Nat}
    (h1 : s2.tcb = s1.tcb) (h2 : s2.g_readytorun = s1.g_readytorun)
    (h3 : s2.g_assignedtasks = s1.g_assignedtasks) (h : smp_wf n s1 lr la) :
    smp_wf n s2 lr la := by
  unfold smp_wf at h ⊢
  rw [h1, h2, h3]
  exact h

/-- A store to task_state that does not change the list the TCB names keeps
the state well formed. -/
theorem smp_wf_store_keep {n : Nat} {s : smp_state} {lr : List Nat} {la : Nat → List Nat}
    (x : Nat) (st : tstate_e) (h : smp_wf n s lr la)
    (hk : SMP.TLIST_HEAD st (s.tcb x).cpu =
      SMP.TLIST_HEAD (s.tcb x).task_state (s.tcb x).cpu) :
    smp_wf n (SMP.store_task_state x st s) lr la := by
  obtain ⟨hr, ha, hd1, hd2, hfr, hfa⟩ := h
  have key : ∀ y, SMP.TLIST_HEAD ((SMP.store_task_state x st s).tcb y).task_state
      ((SMP.store_task_state x st s).tcb y).cpu =
      SMP.TLIST_HEAD (s.tcb y).task_state (s.tcb y).cpu := by
    intro y
    show SMP.TLIST_HEAD (set_task_state s.tcb x st y).task_state
      (set_task_state s.tcb x st y).cpu = _
    rw [set_task_state_state, (set_task_state_links _ _ _ _).2.2.1]
    by_cases hy : y = x
    · rw [if_pos hy, hy]; exact hk
    · rw [if_neg hy]
  refine ⟨dq_wf_set_task_state _ _ hr, fun c hc => dq_wf_set_task_state _ _ (ha c hc),
    hd1, hd2, ?_, ?_⟩
  · intro y hy; rw [key]; exact hfr y hy
  · intro c hc y hy; rw [key]; exact hfa c hc y hy

/-- A store to the task_state of a TCB that lies on no list keeps the state
well formed. -/
theorem smp_wf_store_unlisted {n : Nat} {s : smp_state} {lr : List Nat}
    {la : Nat → List Nat} (x : Nat) (st : tstate_e) (h : smp_wf n s lr la)
    (hxr : x ∉ lr) (hxa : ∀ c < n, x ∉ la c) :
    smp_wf n (SMP.store_task_state x st s) lr la := by
  obtain ⟨hr, ha, hd1, hd2, hfr, hfa⟩ := h
  have key : ∀ y, y ≠ x → (SMP.store_task_state x st s).tcb y = s.tcb y := by
    intro y hy
    show set_task_state s.tcb x st y = _
    unfold set_task_state
    rw [if_neg hy]
  refine ⟨dq_wf_set_task_state _ _ hr, fun c hc => dq_wf_set_task_state _ _ (ha c hc),
    hd1, hd2, ?_, ?_⟩
  · intro y hy
    rw [key y (fun e => hxr (e ▸ hy))]
    exact hfr y hy
  · intro c hc y hy
    rw [key y (fun e => hxa c hc (e ▸ hy))]
    exact hfa c hc y hy

theorem smp_remove_fields (t : Nat) (tl : tasklist_t) (s : smp_state) (x : Nat) :
    ((SMP.remove_from_list t tl s).tcb x).task_state = (s.tcb x).task_state ∧
    ((SMP.remove_from_list t tl s).tcb x).cpu = (s.tcb x).cpu ∧
    ((SMP.remove_from_list t tl s).tcb x).lockcount = (s.tcb x).lockcount ∧
    ((SMP.remove_from_list t tl s).tcb x).irqcount = (s.tcb x).irqcount := by
  cases tl with
  | readytorun => exact dq_rem_fields t s.tcb s.g_readytorun x
  | assigned c => exact dq_rem_fields t s.tcb (s.g_assignedtasks c) x

/-- Unlinking a listed task from the list its fields name keeps the state
well formed; the layout is the old one with the task erased. -/
theorem smp_wf_remove {n : Nat} {s : smp_state} {lr : List Nat} {la : Nat → List Nat}
    {tl : tasklist_t} {t : Nat} (h : smp_wf n s lr la) (hl : listed n lr la tl t) :
    smp_wf n (SMP.remove_from_list t tl s) (lr.erase t) (erase_assigned la t) := by
  obtain ⟨hr, ha, hd1, hd2, hfr, hfa⟩ := h
  have hsub : ∀ {l : List Nat} {x : Nat}, x ∈ l.erase t → x ∈ l :=
    fun hx => List.mem_of_mem_erase hx
  have hfields : ∀ y, SMP.TLIST_HEAD ((SMP.remove_from_list t tl s).tcb y).task_state
      ((SMP.remove_from_list t tl s).tcb y).cpu =
      SMP.TLIST_HEAD (s.tcb y).task_state (s.tcb y).cpu := by
    intro y
    rw [(smp_remove_fields t tl s y).1, (smp_remove_fields t tl s y).2.1]
  refine ⟨?_, ?_, ?_, ?_, ?_, ?_⟩
  · cases tl with
    | readytorun => exact dq_rem_wf hr hl
    | assigned c =>
      obtain ⟨hc, ht⟩ := hl
      have htr : t ∉ lr := hd1 c hc t ht
      rw [List.erase_of_not_mem htr]
      exact dq_rem_frame (ha c hc) ht hr (fun x hx hxa => hd1 c hc x hxa hx)
  · intro d hd
    show dq_wf _ _ ((la d).erase t)
    cases tl with
    | readytorun =>
      have htd : t ∉ la d := fun e => hd1 d hd t e hl
      rw [List.erase_of_not_mem htd]
      exact dq_rem_frame hr hl (ha d hd) (hd1 d hd)
    | assigned c =>
      obtain ⟨hc, ht⟩ := hl
      by_cases hdc : d = c
      · subst hdc
        have := dq_rem_wf (ha d hc) ht
        simpa [SMP.remove_from_list] using this
      · have htd : t ∉ la d := fun e => hdc (hd2 d hd c hc t e ht)
        rw [List.erase_of_not_mem htd]
        have := dq_rem_frame (ha c hc) ht (ha d hd)
          (fun x hx hxc => hdc (hd2 d hd c hc x hx hxc))
        simpa [SMP.remove_from_list, hdc] using this
  · intro c hc x hx hxr
    exact hd1 c hc x (hsub hx) (hsub hxr)
  · intro c hc d hd x hx hxd
    exact hd2 c hc d hd x (hsub hx) (hsub hxd)
  · intro x hx
    rw [hfields]
    exact hfr x (hsub hx)
  · intro c hc x hx
    rw [hfields]
    exact hfa c hc x (hsub hx)

/-- After the unlink the removed task lies on no list of the layout. -/
theorem not_listed_after_erase {n : Nat} {s : smp_state} {lr : List Nat}
    {la : Nat → List Nat} (h : smp_wf n s lr la) (t : Nat) :
    t ∉ lr.erase t ∧ ∀ c < n, t ∉ erase_assigned la t c :=
  ⟨List.Nodup.not_mem_erase h.1.1, fun c hc => List.Nodup.not_mem_erase (h.2.1 c hc).1⟩

/-- The fields of a listed task name the list it lies on. -/
theorem listed_TLIST_HEAD {n : Nat} {s : smp_state} {lr : List Nat} {la : Nat → List Nat}
    {tl : tasklist_t} {t : Nat} (h : smp_wf n s lr la) (hl : listed n lr la tl t) :
    SMP.TLIST_HEAD (s.tcb t).task_state (s.tcb t).cpu = tl := by
  cases tl with
  | readytorun => exact h.2.2.2.2.1 t hl
  | assigned c => exact h.2.2.2.2.2 c hl.1 t hl.2

/-- The queue of the list a listed task lies on represents that list. -/
theorem listed_dq_wf {n : Nat} {s : smp_state} {lr : List Nat} {la : Nat → List Nat}
    {tl : tasklist_t} {t : Nat} (h : smp_wf n s lr la) (hl : listed n lr la tl t) :
    dq_wf s.tcb (SMP.tasklist_queue s tl) (layout_list lr la tl) ∧ t ∈ layout_list lr la tl := by
  cases tl with
  | readytorun => exact ⟨h.1, hl⟩
  | assigned c => exact ⟨h.2.1 c hl.1, hl.2⟩

/-- The call on the head of an assigned list with a successor takes the switch
branch. -/
theorem smp_remove_switch_eq {s : smp_state} {c t nx : Nat} {rest : List Nat} (me : Nat)
    (hq : dq_wf s.tcb (s.g_assignedtasks c) (t :: nx :: rest))
    (hf : SMP.TLIST_HEAD (s.tcb t).task_state (s.tcb t).cpu = tasklist_t.assigned c) :
    SMP.sched_removereadytorun me t s =
      some ((SMP.switch_branch me c t nx (tasklist_t.assigned c) s).1,
        SMP.store_task_state t TSTATE_TASK_INVALID
          (SMP.switch_branch me c t nx (tasklist_t.assigned c) s).2) := by
  obtain ⟨hrun, hcpu⟩ := TLIST_HEAD_eq_assigned hf
  have hb : (s.tcb t).blink = none := (dq_wf_blink_none_iff hq (by simp)).mpr (by simp)
  have hfl : (s.tcb t).flink = some nx := dq_wf_head_flink hq
  rw [hcpu] at hf
  unfold SMP.sched_removereadytorun
  simp only [hcpu, hf, hfl]
  rw [if_pos ⟨hb, hrun⟩]

/-- The call on a listed task that is not the head of a runnable list takes
the plain branch. -/
theorem smp_remove_plain_eq {s : smp_state} {tl : tasklist_t} {l : List Nat} {t : Nat}
    (me : Nat) (hq : dq_wf s.tcb (SMP.tasklist_queue s tl) l) (ht : t ∈ l)
    (hf : SMP.TLIST_HEAD (s.tcb t).task_state (s.tcb t).cpu = tl)
    (hnot : tl = tasklist_t.readytorun ∨ l.head? ≠ some t) :
    SMP.sched_removereadytorun me t s =
      some (false, SMP.store_task_state t TSTATE_TASK_INVALID
        (SMP.remove_from_list t tl s)) := by
  have hcond : ¬ ((s.tcb t).blink = none ∧
      SMP.TLIST_ISRUNNABLE (s.tcb t).task_state = true) := by
    rintro ⟨hb, hrun⟩
    rcases hnot with h | h
    · rw [h] at hf
      exact TLIST_HEAD_eq_readytorun hf hrun
    · exact h ((dq_wf_blink_none_iff hq ht).mp hb)
  unfold SMP.sched_removereadytorun
  simp only [hf]
  rw [if_neg hcond]

/-- State of every task after the switch branch and the final store. -/
theorem smp_switch_task_state (me c t nx : Nat) (tl : tasklist_t) (s : smp_state) (x : Nat) :
    ((SMP.store_task_state t TSTATE_TASK_INVALID
        (SMP.switch_branch me c t nx tl s).2).tcb x).task_state =
      if x = t then TSTATE_TASK_INVALID
      else if x = nx then TSTATE_TASK_RUNNING else (s.tcb x).task_state := by
  show (set_task_state (SMP.switch_branch me c t nx tl s).2.tcb t
    TSTATE_TASK_INVALID x).task_state = _
  rw [set_task_state_state, (switch_branch_spec me c t nx tl s).2.1,
    (smp_remove_fields _ _ _ _).1]
  show (if x = t then TSTATE_TASK_INVALID
    else (set_task_state s.tcb nx TSTATE_TASK_RUNNING x).task_state) = _
  rw [set_task_state_state]

/-- State of every task after the plain branch and the final store. -/
theorem smp_plain_task_state (t : Nat) (tl : tasklist_t) (s : smp_state) (x : Nat) :
    ((SMP.store_task_state t TSTATE_TASK_INVALID
        (SMP.remove_from_list t tl s)).tcb x).task_state =
      if x = t then TSTATE_TASK_INVALID else (s.tcb x).task_state := by
  show (set_task_state (SMP.remove_from_list t tl s).tcb t
    TSTATE_TASK_INVALID x).task_state = _
  rw [set_task_state_state, (smp_remove_fields _ _ _ _).1]

/-- The plain branch keeps a well-formed state well formed. -/
theorem smp_plain_wf {n : Nat} {s : smp_state} {lr : List Nat} {la : Nat → List Nat}
    {tl : tasklist_t} {t : Nat} (h : smp_wf n s lr la) (hl : listed n lr la tl t) :
    smp_wf n (SMP.store_task_state t TSTATE_TASK_INVALID (SMP.remove_from_list t tl s))
      (lr.erase t) (erase_assigned la t) :=
  smp_wf_store_unlisted t _ (smp_wf_remove h hl) (not_listed_after_erase h t).1
    (not_listed_after_erase h t).2

/-- The switch branch keeps a well-formed state well formed. -/
theorem smp_switch_wf {n : Nat} {s : smp_state} {lr : List Nat} {la : Nat → List Nat}
    {c t nx : Nat} (me : Nat) (h : smp_wf n s lr la) (hc : c < n) (ht : t ∈ la c)
    (hnx : nx ∈ la c) :
    smp_wf n (SMP.store_task_state t TSTATE_TASK_INVALID
        (SMP.switch_branch me c t nx (tasklist_t.assigned c) s).2)
      (lr.erase t) (erase_assigned la t) := by
  have hnxf := h.2.2.2.2.2 c hc nx hnx
  obtain ⟨hrun, hcpu⟩ := TLIST_HEAD_eq_assigned hnxf
  have h5 : smp_wf n (SMP.store_task_state nx TSTATE_TASK_RUNNING s) lr la := by
    apply smp_wf_store_keep nx _ h
    rw [hnxf, hcpu]
    rfl
  have hl6 : listed n lr la (tasklist_t.assigned c) t := ⟨hc, ht⟩
  have h6 := smp_wf_remove h5 hl6
  have hsp := switch_branch_spec me c t nx (tasklist_t.assigned c) s
  have h7 : smp_wf n (SMP.switch_branch me c t nx (tasklist_t.assigned c) s).2
      (lr.erase t) (erase_assigned la t) :=
    smp_wf_congr hsp.2.1 hsp.2.2.1 hsp.2.2.2.1 h6
  exact smp_wf_store_unlisted t _ h7 (not_listed_after_erase h t).1
    (not_listed_after_erase h t).2

/-- The two ways a uniprocessor call on a listed task can go when the task is
not the only entry. -/
theorem up_remove_cases {s : up_state} {l : List Nat} {t : Nat}
    (hwf : up_wf s l) (ht : t ∈ l) (hret : l ≠ [t]) :
    (∃ nx rest, l = t :: nx :: rest ∧
      UP.sched_removereadytorun t s = some (UP.finish t true
        (UP.store_task_state nx TSTATE_TASK_RUNNING (UP.sched_note_switch t nx s)))) ∨
    (l.head? ≠ some t ∧ UP.sched_removereadytorun t s = some (UP.finish t false s)) := by
  by_cases hh : l.head? = some t
  · left
    cases l with
    | nil => simp at ht
    | cons a r =>
      simp only [List.head?_cons, Option.some.injEq] at hh
      subst hh
      cases r with
      | nil => exact absurd rfl hret
      | cons nx rest => exact ⟨nx, rest, rfl, up_remove_head_eq hwf⟩
  · right
    exact ⟨hh, up_remove_nonhead_eq hwf ht hh⟩

/-- The two ways an SMP call on a listed task can go when the task is not the
only entry of an assigned list. -/
theorem smp_remove_cases {n : Nat} {s : smp_state} {lr : List Nat} {la : Nat → List Nat}
    {tl : tasklist_t} {t : Nat} (me : Nat) (h : smp_wf n s lr la)
    (hl : listed n lr la tl t) (hret : ∀ c, tl = tasklist_t.assigned c → la c ≠ [t]) :
    (∃ c nx rest, tl = tasklist_t.assigned c ∧ c < n ∧ la c = t :: nx :: rest ∧
      SMP.sched_removereadytorun me t s =
        some ((SMP.switch_branch me c t nx (tasklist_t.assigned c) s).1,
          SMP.store_task_state t TSTATE_TASK_INVALID
            (SMP.switch_branch me c t nx (tasklist_t.assigned c) s).2)) ∨
    ((tl = tasklist_t.readytorun ∨ (layout_list lr la tl).head? ≠ some t) ∧
      SMP.sched_removereadytorun me t s =
        some (false, SMP.store_task_state t TSTATE_TASK_INVALID
          (SMP.remove_from_list t tl s))) := by
  have hf := listed_TLIST_HEAD h hl
  obtain ⟨hq, hm⟩ := listed_dq_wf h hl
  by_cases hsw : tl = tasklist_t.readytorun ∨ (layout_list lr la tl).head? ≠ some t
  · right
    exact ⟨hsw, smp_remove_plain_eq me hq hm hf hsw⟩
  · left
    cases tl with
    | readytorun => exact absurd (Or.inl rfl) hsw
    | assigned c =>
      have hh : (la c).head? = some t := by
        by_contra e
        exact hsw (Or.inr e)
      have hc : c < n := hl.1
      have hne := hret c rfl
      have hqc : dq_wf s.tcb (s.g_assignedtasks c) (la c) := h.2.1 c hc
      cases hla : la c with
      | nil => rw [hla] at hh; simp at hh
      | cons a r =>
        rw [hla] at hh hne hqc
        simp only [List.head?_cons, Option.some.injEq] at hh
        subst hh
        cases r with
        | nil => exact absurd rfl hne
        | cons nx rest =>
          exact ⟨c, nx, rest, rfl, hc, hla, smp_remove_switch_eq me hqc hf⟩

/-- After the switch branch the assigned list of the processor represents the
old list without its head. -/
theorem smp_switch_list_wf {s : smp_state} {c t nx : Nat} {rest : List Nat} (me : Nat)
    (hq : dq_wf s.tcb (s.g_assignedtasks c) (t :: nx :: rest)) :
    dq_wf (SMP.store_task_state t TSTATE_TASK_INVALID
        (SMP.switch_branch me c t nx (tasklist_t.assigned c) s).2).tcb
      ((SMP.store_task_state t TSTATE_TASK_INVALID
        (SMP.switch_branch me c t nx (tasklist_t.assigned c) s).2).g_assignedtasks c)
      (nx :: rest) := by
  have h5 : dq_wf (set_task_state s.tcb nx TSTATE_TASK_RUNNING) (s.g_assignedtasks c)
      (t :: nx :: rest) := dq_wf_set_task_state _ _ hq
  have h6 := dq_rem_wf h5 (List.mem_cons_self t (nx :: rest))
  rw [List.erase_cons_head] at h6
  have hsp := switch_branch_spec me c t nx (tasklist_t.assigned c) s
  show dq_wf (set_task_state (SMP.switch_branch me c t nx (tasklist_t.assigned c) s).2.tcb t
      TSTATE_TASK_INVALID)
    ((SMP.switch_branch me c t nx (tasklist_t.assigned c) s).2.g_assignedtasks c) (nx :: rest)
  rw [hsp.2.1, hsp.2.2.2.1]
  apply dq_wf_set_task_state
  simpa [SMP.remove_from_list, SMP.store_task_state] using h6

/-- The bitsets after the switch branch and the final store. -/
theorem smp_switch_bitsets (me c t nx : Nat) (tl : tasklist_t) (s : smp_state) :
    (SMP.store_task_state t TSTATE_TASK_INVALID
        (SMP.switch_branch me c t nx tl s).2).g_cpu_lockset =
      (if 0 < (s.tcb nx).lockcount then (spin_setbit s.g_cpu_lockset c).1
       else (spin_clrbit s.g_cpu_lockset c).1) ∧
    (SMP.store_task_state t TSTATE_TASK_INVALID
        (SMP.switch_branch me c t nx tl s).2).g_cpu_irqset =
      (spin_setbit s.g_cpu_irqset c).1 :=
  ⟨(switch_branch_spec me c t nx tl s).2.2.2.2.1, (switch_branch_spec me c t nx tl s).2.2.2.2.2⟩

theorem tcb_s_ext {a b : tcb_s} (h1 : a.flink = b.flink) (h2 : a.blink = b.blink)
    (h3 : a.task_state = b.task_state) (h4 : a.cpu = b.cpu)
    (h5 : a.lockcount = b.lockcount) (h6 : a.irqcount = b.irqcount) : a = b := by
  cases a; cases b; simp_all

/-- Unlinking an entry of a well-formed queue leaves every TCB outside that
queue untouched. -/
theorem dq_rem_untouched {m : Nat → tcb_s} {q : dq_queue_t} {l : List Nat} {t x : Nat}
    (h : dq_wf m q l) (ht : t ∈ l) (hx : x ∉ l) : (dq_rem t m q).1 x = m x := by
  have hxt : x ≠ t := fun e => hx (e ▸ ht)
  have hf := dq_rem_fields t m q x
  apply tcb_s_ext _ _ hf.1 hf.2.1 hf.2.2.1 hf.2.2.2
  · rw [dq_rem_flink, if_neg hxt, (h.2.2.2 t ht).2, if_neg (dq_prev_ne_of_not_mem hx)]
  · rw [dq_rem_blink, if_neg hxt, (h.2.2.2 t ht).1, if_neg (dq_next_ne_of_not_mem hx)]

/-! ## Runs -/

theorem up_removable_take {isidle : Nat → Bool} {l ts : List Nat} (k : Nat)
    (h : up_removable isidle l ts) : up_removable isidle l (ts.take k) := by
  induction ts generalizing l k with
  | nil => simpa using h
  | cons t ts ih =>
    cases k with
    | zero => simp [up_removable]
    | succ k =>
      rw [List.take_succ_cons]
      exact ⟨h.1, h.2.1, ih k h.2.2⟩

theorem smp_removable_take {n : Nat} {isidle : Nat → Bool} {lr : List Nat}
    {la : Nat → List Nat} {cs : List (Nat × Nat)} (k : Nat)
    (h : smp_removable n isidle lr la cs) : smp_removable n isidle lr la (cs.take k) := by
  induction cs generalizing lr la k with
  | nil => simpa using h
  | cons c cs ih =>
    cases k with
    | zero => simp [smp_removable]
    | succ k =>
      rw [List.take_succ_cons]
      exact ⟨h.1, h.2.1, ih k h.2.2⟩

/-- A uniprocessor run that never removes an idle task never fires the
assertion, keeps the list well formed, and keeps every idle task on it. -/
theorem up_run_spec {isidle : Nat → Bool} (ts : List Nat) :
    ∀ (s : up_state) (l : List Nat), up_wf s l → (∃ i ∈ l, isidle i = true) →
      up_removable isidle l ts →
      ∃ s2, UP.run ts s = some s2 ∧ up_wf s2 (erase_seq l ts) ∧
        ∀ i ∈ l, isidle i = true → i ∈ erase_seq l ts := by
  induction ts with
  | nil =>
    intro s l hwf _ _
    exact ⟨s, rfl, hwf, fun i hi _ => hi⟩
  | cons t ts ih =>
    intro s l hwf hidle hrem
    obtain ⟨ht, hti, hrest⟩ := hrem
    obtain ⟨i, hil, hii⟩ := hidle
    have hit : i ≠ t := fun e => by rw [e, hti] at hii; exact absurd hii (by simp)
    have hret : l ≠ [t] := by
      intro e
      rw [e] at hil
      exact hit (List.mem_singleton.mp hil)
    have hkeep : ∀ j ∈ l, isidle j = true → j ∈ l.erase t := by
      intro j hj hji
      have hjt : j ≠ t := fun e => by rw [e, hti] at hji; exact absurd hji (by simp)
      exact (List.mem_erase_of_ne hjt).mpr hj
    have hstep : ∃ r, UP.sched_removereadytorun t s = some r ∧ up_wf r.2 (l.erase t) := by
      rcases up_remove_cases hwf ht hret with ⟨nx, rest, _, heq⟩ | ⟨_, heq⟩
      · exact ⟨_, heq, up_finish_wf true (up_mark_running_wf t nx hwf) ht⟩
      · exact ⟨_, heq, up_finish_wf false hwf ht⟩
    obtain ⟨r, hr, hwf2⟩ := hstep
    obtain ⟨s2, hrun, hwf3, hk3⟩ := ih r.2 (l.erase t) hwf2 ⟨i, hkeep i hil hii, hii⟩ hrest
    refine ⟨s2, ?_, hwf3, ?_⟩
    · simp only [UP.run, hr]
      exact hrun
    · intro j hj hji
      exact hk3 j (hkeep j hj hji) hji

theorem listed_of_mem {n : Nat} {lr : List Nat} {la : Nat → List Nat} {t : Nat}
    (h : t ∈ lr ∨ ∃ d < n, t ∈ la d) : ∃ tl, listed n lr la tl t := by
  rcases h with h | ⟨d, hd, h⟩
  · exact ⟨tasklist_t.readytorun, h⟩
  · exact ⟨tasklist_t.assigned d, hd, h⟩

/-- An SMP run that never removes an idle task never fires the assertion,
keeps the state well formed, and keeps every idle task on its list. -/
theorem smp_run_spec {n : Nat} {isidle : Nat → Bool} (cs : List (Nat × Nat)) :
    ∀ (s : smp_state) (lr : List Nat) (la : Nat → List Nat), smp_wf n s lr la →
      (∀ c < n, ∃ i ∈ la c, isidle i = true) →
      smp_removable n isidle lr la cs →
      ∃ s2, SMP.run cs s = some s2 ∧
        smp_wf n s2 (erase_seq lr (cs.map Prod.snd))
          (fun c => erase_seq (la c) (cs.map Prod.snd)) ∧
        (∀ i ∈ lr, isidle i = true → i ∈ erase_seq lr (cs.map Prod.snd)) ∧
        (∀ c, ∀ i ∈ la c, isidle i = true → i ∈ erase_seq (la c) (cs.map Prod.snd)) := by
  induction cs with
  | nil =>
    intro s lr la hwf _ _
    exact ⟨s, rfl, hwf, fun i hi _ => hi, fun c i hi _ => hi⟩
  | cons call cs ih =>
    intro s lr la hwf hidle hrem
    obtain ⟨hmem, hti, hrest⟩ := hrem
    obtain ⟨tl, hl⟩ := listed_of_mem hmem
    have hne : ∀ j, isidle j = true → j ≠ call.2 := fun j hji e => by
      rw [e, hti] at hji; exact absurd hji (by simp)
    have hkeep : ∀ (l : List Nat), ∀ j ∈ l, isidle j = true → j ∈ l.erase call.2 :=
      fun l j hj hji => (List.mem_erase_of_ne (hne j hji)).mpr hj
    have hret : ∀ c, tl = tasklist_t.assigned c → la c ≠ [call.2] := by
      intro c hc e
      rw [hc] at hl
      obtain ⟨i, hil, hii⟩ := hidle c hl.1
      rw [e] at hil
      exact hne i hii (List.mem_singleton.mp hil)
    have hstep : ∃ r, SMP.sched_removereadytorun call.1 call.2 s = some r ∧
        smp_wf n r.2 (lr.erase call.2) (erase_assigned la call.2) := by
      rcases smp_remove_cases call.1 hwf hl hret with
        ⟨c, nx, rest, htl, hc, hla, heq⟩ | ⟨_, heq⟩
      · exact ⟨_, heq, smp_switch_wf call.1 hwf hc (by rw [hla]; simp) (by rw [hla]; simp)⟩
      · exact ⟨_, heq, smp_plain_wf hwf hl⟩
    obtain ⟨r, hr, hwf2⟩ := hstep
    have hidle2 : ∀ c < n, ∃ i ∈ erase_assigned la call.2 c, isidle i = true := by
      intro c hc
      obtain ⟨i, hil, hii⟩ := hidle c hc
      exact ⟨i, hkeep _ i hil hii, hii⟩
    obtain ⟨s2, hrun, hwf3, hkr, hka⟩ :=
      ih r.2 (lr.erase call.2) (erase_assigned la call.2) hwf2 hidle2 hrest
    refine ⟨s2, ?_, hwf3, ?_, ?_⟩
    · simp only [SMP.run, hr]
      exact hrun
    · intro j hj hji
      exact hkr j (hkeep _ j hj hji) hji
    · intro c j hj hji
      exact hka c j (hkeep _ j hj hji) hji

/-! ## Invariant preservation -/

/-- One uniprocessor call preserves the membership/state invariant. -/
theorem up_inv_step {s : up_state} {l : List Nat} {t : Nat}
    (hinv : up_inv s l) (ht : t ∈ l) (hret : l ≠ [t]) :
    ∃ b s2, UP.sched_removereadytorun t s = some (b, s2) ∧ up_inv s2 (l.erase t) := by
  obtain ⟨hwf, hrun⟩ := hinv
  have hnd : l.Nodup := hwf.1
  have hxt : ∀ x ∈ l.erase t, x ≠ t := fun x hx e =>
    List.Nodup.not_mem_erase hnd (e ▸ hx)
  rcases up_remove_cases hwf ht hret with ⟨nx, rest, hl, heq⟩ | ⟨hnh, heq⟩
  · have hst : ∀ x ∈ l.erase t,
        (((UP.finish t true (UP.store_task_state nx TSTATE_TASK_RUNNING
          (UP.sched_note_switch t nx s))).2.tcb x).task_state = TSTATE_TASK_RUNNING ↔
          (l.erase t).head? = some x) := by
      intro x hx
      have hxt2 := hxt x hx
      rw [up_finish_task_state t true _ x, if_neg hxt2, up_mark_running_state]
      subst hl
      rw [List.erase_cons_head] at hx ⊢
      by_cases hxn : x = nx
      · subst hxn
        simp
      · rw [if_neg hxn]
        have hold := hrun x (List.mem_cons_of_mem t hx)
        have hne : ¬ nx = x := fun e => hxn e.symm
        have hne2 : ¬ t = x := fun e => hxt2 e.symm
        simp only [List.head?_cons, Option.some.injEq, hne, hne2, iff_false] at hold ⊢
        exact hold
    exact ⟨true, _, heq, up_finish_wf true (up_mark_running_wf t nx hwf) ht, hst⟩
  · have hst : ∀ x ∈ l.erase t,
        (((UP.finish t false s).2.tcb x).task_state = TSTATE_TASK_RUNNING ↔
          (l.erase t).head? = some x) := by
      intro x hx
      rw [up_finish_task_state t false _ x, if_neg (hxt x hx), head?_erase, if_neg hnh]
      exact hrun x (List.mem_of_mem_erase hx)
    exact ⟨false, _, heq, up_finish_wf false hwf ht, hst⟩

/-- A listed task lies on no other assigned list than the one it is listed on. -/
theorem listed_unique {n : Nat} {s : smp_state} {lr : List Nat} {la : Nat → List Nat}
    {tl : tasklist_t} {t d : Nat} (h : smp_wf n s lr la) (hl : listed n lr la tl t)
    (hd : d < n) (htd : t ∈ la d) : tl = tasklist_t.assigned d := by
  cases tl with
  | readytorun => exact absurd hl (h.2.2.1 d hd t htd)
  | assigned c => rw [h.2.2.2.1 c hl.1 d hd t hl.2 htd]

/-- One SMP call preserves the membership/state invariant. -/
theorem smp_inv_step {n : Nat} {s : smp_state} {lr : List Nat} {la : Nat → List Nat}
    {tl : tasklist_t} {t : Nat} (me : Nat) (hinv : smp_inv n s lr la)
    (hl : listed n lr la tl t) (hret : ∀ c, tl = tasklist_t.assigned c → la c ≠ [t]) :
    ∃ b s2, SMP.sched_removereadytorun me t s = some (b, s2) ∧
      smp_inv n s2 (lr.erase t) (erase_assigned la t) := by
  obtain ⟨hwf, hrdy, hasg⟩ := hinv
  have hxr : ∀ x ∈ lr.erase t, x ≠ t := fun x hx e =>
    List.Nodup.not_mem_erase hwf.1.1 (e ▸ hx)
  have hxa : ∀ d < n, ∀ x ∈ (la d).erase t, x ≠ t := fun d hd x hx e =>
    List.Nodup.not_mem_erase (hwf.2.1 d hd).1 (e ▸ hx)
  rcases smp_remove_cases me hwf hl hret with ⟨c, nx, rest, htl, hc, hla, heq⟩ | ⟨hsw, heq⟩
  · have htc : t ∈ la c := by rw [hla]; simp
    have hnc : nx ∈ la c := by rw [hla]; simp
    refine ⟨_, _, heq, smp_switch_wf me hwf hc htc hnc, ?_, ?_⟩
    · intro x hx
      have hxl : x ∈ lr := List.mem_of_mem_erase hx
      have hxn : x ≠ nx := fun e => hwf.2.2.1 c hc nx hnc (e ▸ hxl)
      rw [smp_switch_task_state, if_neg (hxr x hx), if_neg hxn]
      exact hrdy x hxl
    · intro d hd x hx
      have hx2 : x ∈ (la d).erase t := hx
      have hxt := hxa d hd x hx2
      have hxl : x ∈ la d := List.mem_of_mem_erase hx2
      rw [smp_switch_task_state, if_neg hxt]
      show _ ↔ ((la d).erase t).head? = some x
      by_cases hdc : d = c
      · subst hdc
        have hold := hasg d hd x hxl
        rw [hla] at hold ⊢
        rw [List.erase_cons_head]
        by_cases hxn : x = nx
        · subst hxn
          simp
        · rw [if_neg hxn]
          have hne : ¬ nx = x := fun e => hxn e.symm
          have hne2 : ¬ t = x := fun e => hxt e.symm
          simp only [List.head?_cons, Option.some.injEq, hne, hne2, iff_false] at hold ⊢
          exact hold
      · have htd : t ∉ la d := fun e => hdc (hwf.2.2.2.1 d hd c hc t e htc)
        have hxn : x ≠ nx := fun e => hdc (hwf.2.2.2.1 d hd c hc x hxl (e ▸ hnc))
        rw [if_neg hxn, List.erase_of_not_mem htd]
        exact hasg d hd x hxl
  · refine ⟨_, _, heq, smp_plain_wf hwf hl, ?_, ?_⟩
    · intro x hx
      rw [smp_plain_task_state, if_neg (hxr x hx)]
      exact hrdy x (List.mem_of_mem_erase hx)
    · intro d hd x hx
      have hx2 : x ∈ (la d).erase t := hx
      have hxl : x ∈ la d := List.mem_of_mem_erase hx2
      rw [smp_plain_task_state, if_neg (hxa d hd x hx2)]
      show _ ↔ ((la d).erase t).head? = some x
      have hnh : (la d).head? ≠ some t := by
        intro e
        have htd : t ∈ la d := head?_mem_of_eq e
        have htl := listed_unique hwf hl hd htd
        rcases hsw with h | h
        · rw [h] at htl; exact absurd htl (by simp)
        · rw [htl] at h; exact h e
      rw [head?_erase, if_neg hnh]
      exact hasg d hd x hxl

/-! ## Claims -/

/-- C1: uniprocessor, removing the head.  For every well-formed ready list
t :: n :: rest (t is the head, so its blink is none, and n is its successor)
the call on t returns true, the resulting state is well formed and represents
n :: rest (the original list without its first entry), the queue head is n,
and the task_state of n is RUNNING. -/
theorem C1_up_remove_head (s : up_state) (t n : Nat) (rest : List Nat)
    (hwf : up_wf s (t :: n :: rest)) :
    (s.tcb t).blink = none ∧
    ∃ s2, UP.sched_removereadytorun t s = some (true, s2) ∧
      up_wf s2 (n :: rest) ∧
      s2.g_readytorun.head = some n ∧
      (s2.tcb n).task_state = TSTATE_TASK_RUNNING := by
  have hb : (s.tcb t).blink = none :=
    (dq_wf_blink_none_iff hwf (by simp)).mpr (by simp)
  have hnt : n ≠ t := by
    have hnd : (t :: n :: rest).Nodup := hwf.1
    intro e
    rw [e] at hnd
    simp at hnd
  have hwf2 := up_finish_wf true (up_mark_running_wf t n hwf) (List.mem_cons_self t (n :: rest))
  rw [List.erase_cons_head] at hwf2
  have h3 : (UP.finish t true (UP.store_task_state n TSTATE_TASK_RUNNING
      (UP.sched_note_switch t n s))).2.g_readytorun.head = some n := by
    rw [hwf2.2.1]; rfl
  have h4 : ((UP.finish t true (UP.store_task_state n TSTATE_TASK_RUNNING
      (UP.sched_note_switch t n s))).2.tcb n).task_state = TSTATE_TASK_RUNNING := by
    rw [up_finish_task_state, if_neg hnt, up_mark_running_state, if_pos rfl]
  exact ⟨hb, _, up_remove_head_eq hwf, hwf2, h3, h4⟩

/-- C1 at the scenario of the spec: removing A from [A, B, C, idle]. -/
theorem C1_up_remove_head_witness :
    up_wf ex_up_abci [1, 2, 3, 4] ∧
    ((ex_up_abci.tcb 1).blink = none ∧
    ∃ s2, UP.sched_removereadytorun 1 ex_up_abci = some (true, s2) ∧
      up_wf s2 [2, 3, 4] ∧
      s2.g_readytorun.head = some 2 ∧
      (s2.tcb 2).task_state = TSTATE_TASK_RUNNING) :=
  ⟨by decide, C1_up_remove_head ex_up_abci 1 2 [3, 4] (by decide)⟩

/-- C2: uniprocessor, removing a task that is not the head.  For every
well-formed ready list l and every task t in l other than its head, the call
returns false, the resulting state represents l with t erased, and the head
of the list is the same task as before with the same task_state. -/
theorem C2_up_remove_nonhead (s : up_state) (l : List Nat) (t : Nat)
    (hwf : up_wf s l) (ht : t ∈ l) (hnh : l.head? ≠ some t) :
    ∃ s2, UP.sched_removereadytorun t s = some (false, s2) ∧
      up_wf s2 (l.erase t) ∧
      (l.erase t).head? = l.head? ∧
      s2.g_readytorun.head = s.g_readytorun.head ∧
      ∀ h, s.g_readytorun.head = some h →
        (s2.tcb h).task_state = (s.tcb h).task_state := by
  have hwf2 := up_finish_wf false hwf ht
  have hh : (l.erase t).head? = l.head? := by
    rw [head?_erase, if_neg hnh]
  have h3 : (UP.finish t false s).2.g_readytorun.head = s.g_readytorun.head := by
    rw [hwf2.2.1, hh, hwf.2.1]
  have h4 : ∀ h, s.g_readytorun.head = some h →
      ((UP.finish t false s).2.tcb h).task_state = (s.tcb h).task_state := by
    intro h hhd
    have hne : h ≠ t := by
      intro e
      rw [hwf.2.1, e] at hhd
      exact hnh hhd
    rw [up_finish_task_state, if_neg hne]
  exact ⟨_, up_remove_nonhead_eq hwf ht hnh, hwf2, hh, h3, h4⟩

/-- C2 at the scenario of the spec: removing C from [B, C, idle]. -/
theorem C2_up_remove_nonhead_witness :
    up_wf ex_up_bci [2, 3, 4] ∧ 3 ∈ [2, 3, 4] ∧ [2, 3, 4].head? ≠ some 3 ∧
    ∃ s2, UP.sched_removereadytorun 3 ex_up_bci = some (false, s2) ∧
      up_wf s2 ([2, 3, 4].erase 3) ∧
      ([2, 3, 4].erase 3).head? = [2, 3, 4].head? ∧
      s2.g_readytorun.head = ex_up_bci.g_readytorun.head ∧
      ∀ h, ex_up_bci.g_readytorun.head = some h →
        (s2.tcb h).task_state = (ex_up_bci.tcb h).task_state :=
  ⟨by decide, by decide, by decide,
    C2_up_remove_nonhead ex_up_bci [2, 3, 4] 3 (by decide) (by decide) (by decide)⟩

/-- C3: terminal state, both variants.  For every well-formed state and every
listed task whose call returns (the task is not the sole entry of a runnable
list, where the successor assertion would fire), whatever branch is taken the
task_state of the removed task is INVALID afterwards, the resulting state is
well formed for the layout with the task erased, and the task lies on no
ready or assigned list: not on those of that layout, nor on those of any
other layout the resulting state could be read as. -/
theorem C3_removed_task_invalid_and_unlisted
    (s : up_state) (l : List Nat) (t : Nat)
    (hwf : up_wf s l) (ht : t ∈ l) (hret : l ≠ [t])
    (n me : Nat) (ss : smp_state) (lr : List Nat) (la : Nat → List Nat)
    (tl : tasklist_t) (u : Nat)
    (hswf : smp_wf n ss lr la) (hl : listed n lr la tl u)
    (hsret : ∀ c, tl = tasklist_t.assigned c → la c ≠ [u]) :
    (∃ b s2, UP.sched_removereadytorun t s = some (b, s2) ∧
      (s2.tcb t).task_state = TSTATE_TASK_INVALID ∧
      up_wf s2 (l.erase t) ∧ t ∉ l.erase t ∧
      ∀ l2, up_wf s2 l2 → t ∉ l2) ∧
    (∃ b s2, SMP.sched_removereadytorun me u ss = some (b, s2) ∧
      (s2.tcb u).task_state = TSTATE_TASK_INVALID ∧
      smp_wf n s2 (lr.erase u) (erase_assigned la u) ∧
      u ∉ lr.erase u ∧ (∀ c < n, u ∉ erase_assigned la u c) ∧
      ∀ lr2 la2, smp_wf n s2 lr2 la2 → u ∉ lr2 ∧ ∀ c < n, u ∉ la2 c) := by
  constructor
  · have hnm : t ∉ l.erase t := List.Nodup.not_mem_erase hwf.1
    have huniq : ∀ (s2 : up_state), up_wf s2 (l.erase t) → ∀ l2, up_wf s2 l2 → t ∉ l2 :=
      fun s2 h2 l2 h3 => (dq_wf_unique h3 h2) ▸ hnm
    rcases up_remove_cases hwf ht hret with ⟨nx, rest, hl2, heq⟩ | ⟨_, heq⟩
    · have hw := up_finish_wf true (up_mark_running_wf t nx hwf) ht
      exact ⟨true, _, heq, (up_finish_task_state t true _ t).trans (if_pos rfl),
        hw, hnm, huniq _ hw⟩
    · have hw := up_finish_wf false hwf ht
      exact ⟨false, _, heq, (up_finish_task_state t false _ t).trans (if_pos rfl),
        hw, hnm, huniq _ hw⟩
  · have hnl := not_listed_after_erase hswf u
    have huniq : ∀ (s2 : smp_state), smp_wf n s2 (lr.erase u) (erase_assigned la u) →
        ∀ lr2 la2, smp_wf n s2 lr2 la2 → u ∉ lr2 ∧ ∀ c < n, u ∉ la2 c := by
      intro s2 h2 lr2 la2 h3
      refine ⟨(dq_wf_unique h3.1 h2.1) ▸ hnl.1, fun c hc => ?_⟩
      rw [dq_wf_unique (h3.2.1 c hc) (h2.2.1 c hc)]
      exact hnl.2 c hc
    rcases smp_remove_cases me hswf hl hsret with ⟨c, nx, rest, htl, hc, hla, heq⟩ | ⟨_, heq⟩
    · have hu : u ∈ la c := by rw [hla]; simp
      have hnx : nx ∈ la c := by rw [hla]; simp
      have hw := smp_switch_wf me hswf hc hu hnx
      exact ⟨_, _, heq, (smp_switch_task_state _ _ _ _ _ _ _).trans (if_pos rfl),
        hw, hnl.1, hnl.2, huniq _ hw⟩
    · have hw := smp_plain_wf hswf hl
      exact ⟨_, _, heq, (smp_plain_task_state _ _ _ _).trans (if_pos rfl),
        hw, hnl.1, hnl.2, huniq _ hw⟩

/-- C3 at two concrete calls: the uniprocessor call on A in [A, B, C, idle],
and the SMP call issued by processor 0 on task 20, the head of the assigned
list of processor 1. -/
theorem C3_removed_task_invalid_and_unlisted_witness :
    (∃ b s2, UP.sched_removereadytorun 1 ex_up_abci = some (b, s2) ∧
      (s2.tcb 1).task_state = TSTATE_TASK_INVALID ∧
      up_wf s2 ([1, 2, 3, 4].erase 1) ∧ 1 ∉ [1, 2, 3, 4].erase 1 ∧
      ∀ l2, up_wf s2 l2 → 1 ∉ l2) ∧
    (∃ b s2, SMP.sched_removereadytorun 0 20 ex_smp = some (b, s2) ∧
      (s2.tcb 20).task_state = TSTATE_TASK_INVALID ∧
      smp_wf 2 s2 ([30, 31].erase 20) (erase_assigned ex_smp_la 20) ∧
      20 ∉ [30, 31].erase 20 ∧ (∀ c < 2, 20 ∉ erase_assigned ex_smp_la 20 c) ∧
      ∀ lr2 la2, smp_wf 2 s2 lr2 la2 → 20 ∉ lr2 ∧ ∀ c < 2, 20 ∉ la2 c) :=
  C3_removed_task_invalid_and_unlisted ex_up_abci [1, 2, 3, 4] 1
    (by decide) (by decide) (by decide)
    2 0 ex_smp [30, 31] ex_smp_la (tasklist_t.assigned 1) 20
    (by decide) (by decide)
    (by intro c h; injection h with h; subst h; decide)

/-- C4: SMP, removing the head of the own assigned list.  For every state in
which g_assignedtasks[c] represents t :: nx :: rest, the fields of t name
that list (task_state is runnable and the cpu field is c), and the caller is
processor c itself, the call returns true, and afterwards the assigned list
of c represents nx :: rest, its head is nx, and the task_state of nx is
RUNNING. -/
theorem C4_smp_remove_own_head (s : smp_state) (c t nx : Nat) (rest : List Nat) (me : Nat)
    (hq : dq_wf s.tcb (s.g_assignedtasks c) (t :: nx :: rest))
    (hf : SMP.TLIST_HEAD (s.tcb t).task_state (s.tcb t).cpu = tasklist_t.assigned c)
    (hme : c = me) :
    ∃ s2, SMP.sched_removereadytorun me t s = some (true, s2) ∧
      dq_wf s2.tcb (s2.g_assignedtasks c) (nx :: rest) ∧
      (s2.g_assignedtasks c).head = some nx ∧
      (s2.tcb nx).task_state = TSTATE_TASK_RUNNING := by
  have hnt : nx ≠ t := by
    have hnd : (t :: nx :: rest).Nodup := hq.1
    intro e
    rw [e] at hnd
    simp at hnd
  have heq := smp_remove_switch_eq me hq hf
  have hb : (SMP.switch_branch me c t nx (tasklist_t.assigned c) s).1 = true := by
    rw [(switch_branch_spec me c t nx (tasklist_t.assigned c) s).1]
    exact decide_eq_true hme
  rw [hb] at heq
  have hl := smp_switch_list_wf me hq
  have hst := smp_switch_task_state me c t nx (tasklist_t.assigned c) s nx
  rw [if_neg hnt, if_pos rfl] at hst
  exact ⟨_, heq, hl, hl.2.1, hst⟩

/-- C4 on the example state: processor 0 removes task 10, the head of its own
assigned list [10, 11, 12]. -/
theorem C4_smp_remove_own_head_witness :
    dq_wf ex_smp.tcb (ex_smp.g_assignedtasks 0) [10, 11, 12] ∧
    ∃ s2, SMP.sched_removereadytorun 0 10 ex_smp = some (true, s2) ∧
      dq_wf s2.tcb (s2.g_assignedtasks 0) [11, 12] ∧
      (s2.g_assignedtasks 0).head = some 11 ∧
      (s2.tcb 11).task_state = TSTATE_TASK_RUNNING :=
  ⟨by decide, C4_smp_remove_own_head ex_smp 0 10 11 [12] 0 (by decide) (by decide) rfl⟩

/-- C5: SMP, removing the head of the assigned list of another processor.
For every state in which g_assignedtasks[c] represents t :: nx :: rest, the
fields of t name that list, and the caller is a processor other than c, the
call returns false, and afterwards the assigned list of c represents
nx :: rest, its head is nx, and the task_state of nx is RUNNING. -/
theorem C5_smp_remove_remote_head (s : smp_state) (c t nx : Nat) (rest : List Nat)
    (me : Nat)
    (hq : dq_wf s.tcb (s.g_assignedtasks c) (t :: nx :: rest))
    (hf : SMP.TLIST_HEAD (s.tcb t).task_state (s.tcb t).cpu = tasklist_t.assigned c)
    (hme : c ≠ me) :
    ∃ s2, SMP.sched_removereadytorun me t s = some (false, s2) ∧
      dq_wf s2.tcb (s2.g_assignedtasks c) (nx :: rest) ∧
      (s2.g_assignedtasks c).head = some nx ∧
      (s2.tcb nx).task_state = TSTATE_TASK_RUNNING := by
  have hnt : nx ≠ t := by
    have hnd : (t :: nx :: rest).Nodup := hq.1
    intro e
    rw [e] at hnd
    simp at hnd
  have heq := smp_remove_switch_eq me hq hf
  have hb : (SMP.switch_branch me c t nx (tasklist_t.assigned c) s).1 = false := by
    rw [(switch_branch_spec me c t nx (tasklist_t.assigned c) s).1]
    exact decide_eq_false hme
  rw [hb] at heq
  have hl := smp_switch_list_wf me hq
  have hst := smp_switch_task_state me c t nx (tasklist_t.assigned c) s nx
  rw [if_neg hnt, if_pos rfl] at hst
  exact ⟨_, heq, hl, hl.2.1, hst⟩

/-- C5 on the example state: processor 0 removes task 20, the head of the
assigned list [20, 21] of processor 1. -/
theorem C5_smp_remove_remote_head_witness :
    dq_wf ex_smp.tcb (ex_smp.g_assignedtasks 1) [20, 21] ∧
    ∃ s2, SMP.sched_removereadytorun 0 20 ex_smp = some (false, s2) ∧
      dq_wf s2.tcb (s2.g_assignedtasks 1) [21] ∧
      (s2.g_assignedtasks 1).head = some 21 ∧
      (s2.tcb 21).task_state = TSTATE_TASK_RUNNING :=
  ⟨by decide,
    C5_smp_remove_remote_head ex_smp 1 20 21 [] 0 (by decide) (by decide) (by decide)⟩

/-- C6: SMP, removing the head of the unassigned ready list.  For every
well-formed state whose unassigned list is t :: rest, the call on t returns
false and no running task changes: every assigned queue header is the same,
every assigned list still represents the same sequence, every TCB on an
assigned list is untouched, and the task_state of every task other than t is
the same as before. -/
theorem C6_smp_remove_unassigned_head (n me : Nat) (s : smp_state) (t : Nat)
    (rest : List Nat) (la : Nat → List Nat)
    (h : smp_wf n s (t :: rest) la) :
    ∃ s2, SMP.sched_removereadytorun me t s = some (false, s2) ∧
      s2.g_assignedtasks = s.g_assignedtasks ∧
      (∀ c < n, dq_wf s2.tcb (s2.g_assignedtasks c) (la c)) ∧
      (∀ c < n, ∀ x ∈ la c, s2.tcb x = s.tcb x) ∧
      (∀ x, x ≠ t → (s2.tcb x).task_state = (s.tcb x).task_state) := by
  have hm : t ∈ t :: rest := List.mem_cons_self t rest
  have hl : listed n (t :: rest) la tasklist_t.readytorun t := hm
  have hq : dq_wf s.tcb (SMP.tasklist_queue s tasklist_t.readytorun) (t :: rest) := h.1
  have heq := smp_remove_plain_eq me hq hm (listed_TLIST_HEAD h hl) (Or.inl rfl)
  have hwf2 := smp_plain_wf h hl
  refine ⟨_, heq, rfl, ?_, ?_, ?_⟩
  · intro c hc
    have htc : t ∉ la c := fun e => h.2.2.1 c hc t e hm
    have := hwf2.2.1 c hc
    unfold erase_assigned at this
    rw [List.erase_of_not_mem htc] at this
    exact this
  · intro c hc x hx
    have hxl : x ∉ t :: rest := h.2.2.1 c hc x hx
    have hxt : x ≠ t := fun e => hxl (e ▸ hm)
    show set_task_state (dq_rem t s.tcb s.g_readytorun).1 t TSTATE_TASK_INVALID x = s.tcb x
    unfold set_task_state
    rw [if_neg hxt]
    exact dq_rem_untouched h.1 hm hxl
  · intro x hx
    rw [smp_plain_task_state, if_neg hx]

/-- C6 on the example state: processor 0 removes task 30, the head of the
unassigned list [30, 31]. -/
theorem C6_smp_remove_unassigned_head_witness :
    smp_wf 2 ex_smp [30, 31] ex_smp_la ∧
    ∃ s2, SMP.sched_removereadytorun 0 30 ex_smp = some (false, s2) ∧
      s2.g_assignedtasks = ex_smp.g_assignedtasks ∧
      (∀ c < 2, dq_wf s2.tcb (s2.g_assignedtasks c) (ex_smp_la c)) ∧
      (∀ c < 2, ∀ x ∈ ex_smp_la c, s2.tcb x = ex_smp.tcb x) ∧
      (∀ x, x ≠ 30 → (s2.tcb x).task_state = (ex_smp.tcb x).task_state) :=
  ⟨by decide, C6_smp_remove_unassigned_head 2 0 ex_smp 30 [31] ex_smp_la (by decide)⟩

/-- C7: SMP scheduler-lock bitset.  After every switch-producing removal
(g_assignedtasks[c] represents t :: nx :: rest and the fields of t name that
list) the call returns, and processor c is a member of g_cpu_lockset
afterwards exactly when the lockcount of nx is positive, whatever the bitset
held before and whichever processor made the call. -/
theorem C7_smp_lockset_matches_lockcount (s : smp_state) (c t nx : Nat)
    (rest : List Nat) (me : Nat)
    (hq : dq_wf s.tcb (s.g_assignedtasks c) (t :: nx :: rest))
    (hf : SMP.TLIST_HEAD (s.tcb t).task_state (s.tcb t).cpu = tasklist_t.assigned c) :
    ∃ b s2, SMP.sched_removereadytorun me t s = some (b, s2) ∧
      (cpu_isset s2.g_cpu_lockset c = true ↔ 0 < (s.tcb nx).lockcount) := by
  refine ⟨_, _, smp_remove_switch_eq me hq hf, ?_⟩
  rw [(smp_switch_bitsets me c t nx (tasklist_t.assigned c) s).1]
  by_cases hl : 0 < (s.tcb nx).lockcount
  · rw [if_pos hl, testBit_setbit]
    exact ⟨fun _ => hl, fun _ => rfl⟩
  · rw [if_neg hl, testBit_clrbit]
    exact ⟨fun e => absurd e (by simp), fun e => absurd e hl⟩

/-- C7 on the example state: processor 0 removes task 20 from the assigned
list of processor 1, which was in the holder set; its successor 21 has
lockcount 0. -/
theorem C7_smp_lockset_matches_lockcount_witness :
    dq_wf ex_smp.tcb (ex_smp.g_assignedtasks 1) [20, 21] ∧
    cpu_isset ex_smp.g_cpu_lockset 1 = true ∧
    ∃ b s2, SMP.sched_removereadytorun 0 20 ex_smp = some (b, s2) ∧
      (cpu_isset s2.g_cpu_lockset 1 = true ↔ 0 < (ex_smp.tcb 21).lockcount) :=
  ⟨by decide, by decide,
    C7_smp_lockset_matches_lockcount ex_smp 1 20 21 [] 0 (by decide) (by decide)⟩

/-- C8, the code at a failing input: in the well-formed example state task
10 is the head of the assigned list of processor 0 and its successor 11 has
irqcount 0; processor 0 is not in g_cpu_irqset before the call, yet it is a
member after the call, because the release branch calls spin_setbit. -/
theorem C8_smp_irqset_set_on_release_branch :
    smp_wf 2 ex_smp [30, 31] ex_smp_la ∧
    ex_smp_la 0 = [10, 11, 12] ∧
    (ex_smp.tcb 11).irqcount = 0 ∧
    cpu_isset ex_smp.g_cpu_irqset 0 = false ∧
    (SMP.sched_removereadytorun 0 10 ex_smp).map
      (fun r => cpu_isset r.2.g_cpu_irqset 0) = some true := by
  decide

/-- C9: non-emptiness, both variants.  Start from a well-formed state in which
every ready and assigned list holds an idle task, and make any sequence of
calls in which each removed task is on a list when its turn comes and is
never an idle task.  Then after each call of the sequence (every length k of
the sequence run so far) the run has returned a state, so the successor
assertion never fired; the state is well formed for the layout with the
removed tasks erased; every list is non-empty; and every idle task is still
on its list. -/
theorem C9_lists_stay_nonempty (isidle : Nat → Bool)
    (s : up_state) (l ts : List Nat)
    (hwf : up_wf s l) (hidle : ∃ i ∈ l, isidle i = true)
    (hts : up_removable isidle l ts)
    (n : Nat) (ss : smp_state) (lr : List Nat) (la : Nat → List Nat)
    (cs : List (Nat × Nat))
    (hswf : smp_wf n ss lr la) (hir : ∃ i ∈ lr, isidle i = true)
    (hia : ∀ c < n, ∃ i ∈ la c, isidle i = true)
    (hcs : smp_removable n isidle lr la cs) :
    (∀ k, ∃ s2, UP.run (ts.take k) s = some s2 ∧
      up_wf s2 (erase_seq l (ts.take k)) ∧
      erase_seq l (ts.take k) ≠ [] ∧
      ∀ i ∈ l, isidle i = true → i ∈ erase_seq l (ts.take k)) ∧
    (∀ k, ∃ s2, SMP.run (cs.take k) ss = some s2 ∧
      smp_wf n s2 (erase_seq lr ((cs.take k).map Prod.snd))
        (fun c => erase_seq (la c) ((cs.take k).map Prod.snd)) ∧
      erase_seq lr ((cs.take k).map Prod.snd) ≠ [] ∧
      (∀ c < n, erase_seq (la c) ((cs.take k).map Prod.snd) ≠ []) ∧
      (∀ i ∈ lr, isidle i = true → i ∈ erase_seq lr ((cs.take k).map Prod.snd)) ∧
      (∀ c, ∀ i ∈ la c, isidle i = true →
        i ∈ erase_seq (la c) ((cs.take k).map Prod.snd))) := by
  constructor
  · intro k
    obtain ⟨s2, hrun, hwf2, hkeep⟩ := up_run_spec (ts.take k) s l hwf hidle
      (up_removable_take k hts)
    obtain ⟨i, hil, hii⟩ := hidle
    exact ⟨s2, hrun, hwf2, List.ne_nil_of_mem (hkeep i hil hii), hkeep⟩
  · intro k
    obtain ⟨s2, hrun, hwf2, hkr, hka⟩ := smp_run_spec (cs.take k) ss lr la hswf hia
      (smp_removable_take k hcs)
    obtain ⟨i, hil, hii⟩ := hir
    refine ⟨s2, hrun, hwf2, List.ne_nil_of_mem (hkr i hil hii), ?_, hkr, hka⟩
    intro c hc
    obtain ⟨j, hjl, hji⟩ := hia c hc
    exact List.ne_nil_of_mem (hka c j hjl hji)

/-- C9 on the example states: the uniprocessor run removes A, C and B from
[A, B, C, idle]; the SMP run removes tasks 20, 10, 30 and 11, called from
processors 0, 0, 1 and 0. -/
theorem C9_lists_stay_nonempty_witness :
    up_wf ex_up_abci [1, 2, 3, 4] ∧ smp_wf 2 ex_smp [30, 31] ex_smp_la ∧
    (∀ k, ∃ s2, UP.run ([1, 3, 2].take k) ex_up_abci = some s2 ∧
      up_wf s2 (erase_seq [1, 2, 3, 4] ([1, 3, 2].take k)) ∧
      erase_seq [1, 2, 3, 4] ([1, 3, 2].take k) ≠ [] ∧
      ∀ i ∈ [1, 2, 3, 4], ex_isidle i = true →
        i ∈ erase_seq [1, 2, 3, 4] ([1, 3, 2].take k)) ∧
    (∀ k, ∃ s2,
      SMP.run ([(0, 20), (0, 10), (1, 30), (0, 11)].take k) ex_smp = some s2 ∧
      smp_wf 2 s2
        (erase_seq [30, 31] (([(0, 20), (0, 10), (1, 30), (0, 11)].take k).map Prod.snd))
        (fun c => erase_seq (ex_smp_la c)
          (([(0, 20), (0, 10), (1, 30), (0, 11)].take k).map Prod.snd)) ∧
      erase_seq [30, 31]
        (([(0, 20), (0, 10), (1, 30), (0, 11)].take k).map Prod.snd) ≠ [] ∧
      (∀ c < 2, erase_seq (ex_smp_la c)
        (([(0, 20), (0, 10), (1, 30), (0, 11)].take k).map Prod.snd) ≠ []) ∧
      (∀ i ∈ [30, 31], ex_isidle i = true → i ∈ erase_seq [30, 31]
        (([(0, 20), (0, 10), (1, 30), (0, 11)].take k).map Prod.snd)) ∧
      (∀ c, ∀ i ∈ ex_smp_la c, ex_isidle i = true → i ∈ erase_seq (ex_smp_la c)
        (([(0, 20), (0, 10), (1, 30), (0, 11)].take k).map Prod.snd))) :=
  ⟨by decide, by decide,
    C9_lists_stay_nonempty ex_isidle ex_up_abci [1, 2, 3, 4] [1, 3, 2]
      (by decide) (by decide)
      ⟨by decide, by decide, by decide, by decide, by decide, by decide, trivial⟩
      2 ex_smp [30, 31] ex_smp_la [(0, 20), (0, 10), (1, 30), (0, 11)]
      (by decide) (by decide) (by decide)
      ⟨by decide, by decide, by decide, by decide, by decide, by decide,
        by decide, by decide, trivial⟩⟩

/-- C10: membership/state invariant, both variants.  Suppose that before the
call every listed task is on exactly one list (the state is well formed) and
a listed task is RUNNING exactly when it is the head of a runnable list (the
single ready list in the uniprocessor build, an assigned list in SMP).  Then
a call on a listed task that is not the sole entry of a runnable list
returns, and the same invariant holds afterwards for the layout with the
task erased. -/
theorem C10_membership_state_invariant
    (s : up_state) (l : List Nat) (t : Nat)
    (hinv : up_inv s l) (ht : t ∈ l) (hret : l ≠ [t])
    (n me : Nat) (ss : smp_state) (lr : List Nat) (la : Nat → List Nat)
    (tl : tasklist_t) (u : Nat)
    (hsinv : smp_inv n ss lr la) (hl : listed n lr la tl u)
    (hsret : ∀ c, tl = tasklist_t.assigned c → la c ≠ [u]) :
    (∃ b s2, UP.sched_removereadytorun t s = some (b, s2) ∧ up_inv s2 (l.erase t)) ∧
    (∃ b s2, SMP.sched_removereadytorun me u ss = some (b, s2) ∧
      smp_inv n s2 (lr.erase u) (erase_assigned la u)) :=
  ⟨up_inv_step hinv ht hret, smp_inv_step me hsinv hl hsret⟩

/-- C10 on the example states: the uniprocessor call removes the head A of
[A, B, C, idle]; the SMP call, made by processor 1, removes task 10, the head
of the assigned list of processor 0. -/
theorem C10_membership_state_invariant_witness :
    up_inv ex_up_abci [1, 2, 3, 4] ∧ smp_inv 2 ex_smp [30, 31] ex_smp_la ∧
    (∃ b s2, UP.sched_removereadytorun 1 ex_up_abci = some (b, s2) ∧
      up_inv s2 ([1, 2, 3, 4].erase 1)) ∧
    (∃ b s2, SMP.sched_removereadytorun 1 10 ex_smp = some (b, s2) ∧
      smp_inv 2 s2 ([30, 31].erase 10) (erase_assigned ex_smp_la 10)) :=
  ⟨by decide, by decide,
    C10_membership_state_invariant ex_up_abci [1, 2, 3, 4] 1
      (by decide) (by decide) (by decide)
      2 1 ex_smp [30, 31] ex_smp_la (tasklist_t.assigned 0) 10
      (by decide) (by decide)
      (by intro c h; injection h with h; subst h; decide)⟩

/-! ## Effects of a call -/

theorem new_events_append (old evs : List sched_event) :
    new_events old (old ++ evs) = evs := by
  unfold new_events
  exact List.drop_left old evs

theorem new_events_self (old : List sched_event) : new_events old old = [] := by
  unfold new_events
  simp

/-- The effects of the uniprocessor switch path, in order. -/
theorem up_switch_trace (t nx : Nat) (s : up_state) :
    (UP.finish t true (UP.store_task_state nx TSTATE_TASK_RUNNING
        (UP.sched_note_switch t nx s))).2.trace =
      s.trace ++ [sched_event.note_switch t nx,
        sched_event.state_store nx TSTATE_TASK_RUNNING,
        sched_event.unlink t tasklist_t.readytorun,
        sched_event.state_store t TSTATE_TASK_INVALID] := by
  simp [UP.finish, UP.store_task_state, UP.remove_from_list, UP.sched_note_switch]

/-- The effects of the uniprocessor plain path, in order. -/
theorem up_plain_trace (t : Nat) (s : up_state) :
    (UP.finish t false s).2.trace =
      s.trace ++ [sched_event.unlink t tasklist_t.readytorun,
        sched_event.state_store t TSTATE_TASK_INVALID] := by
  simp [UP.finish, UP.store_task_state, UP.remove_from_list]

/-- The effects of the SMP switch branch followed by the final store, in
order, when the list belongs to another processor. -/
theorem smp_remote_trace {me c : Nat} (t nx : Nat) (tl : tasklist_t) (s : smp_state)
    (hme : c ≠ me) :
    (SMP.store_task_state t TSTATE_TASK_INVALID
        (SMP.switch_branch me c t nx tl s).2).trace =
      s.trace ++ [sched_event.cpu_pause c,
        (if 0 < (s.tcb nx).lockcount then sched_event.lockset_setbit c
         else sched_event.lockset_clrbit c),
        sched_event.irqset_setbit c,
        sched_event.note_switch t nx,
        sched_event.state_store nx TSTATE_TASK_RUNNING,
        sched_event.unlink t tl,
        sched_event.cpu_resume c,
        sched_event.state_store t TSTATE_TASK_INVALID] := by
  unfold SMP.switch_branch
  by_cases hl : 0 < (s.tcb nx).lockcount <;> cases tl <;>
    simp [hme, hl, SMP.up_cpu_pause, SMP.up_cpu_resume, SMP.lockset_setbit,
      SMP.lockset_clrbit, SMP.irqset_setbit, SMP.sched_note_switch, SMP.store_task_state,
      SMP.remove_from_list]

/-- The effects of the SMP switch branch followed by the final store, in
order, when the list belongs to the calling processor. -/
theorem smp_local_trace {me c : Nat} (t nx : Nat) (tl : tasklist_t) (s : smp_state)
    (hme : c = me) :
    (SMP.store_task_state t TSTATE_TASK_INVALID
        (SMP.switch_branch me c t nx tl s).2).trace =
      s.trace ++ [
        (if 0 < (s.tcb nx).lockcount then sched_event.lockset_setbit c
         else sched_event.lockset_clrbit c),
        sched_event.irqset_setbit c,
        sched_event.note_switch t nx,
        sched_event.state_store nx TSTATE_TASK_RUNNING,
        sched_event.unlink t tl,
        sched_event.state_store t TSTATE_TASK_INVALID] := by
  unfold SMP.switch_branch
  by_cases hl : 0 < (s.tcb nx).lockcount <;> cases tl <;>
    simp [hme, hl, SMP.up_cpu_pause, SMP.up_cpu_resume, SMP.lockset_setbit,
      SMP.lockset_clrbit, SMP.irqset_setbit, SMP.sched_note_switch, SMP.store_task_state,
      SMP.remove_from_list]

/-- The effects of the SMP plain branch, in order. -/
theorem smp_plain_trace (t : Nat) (tl : tasklist_t) (s : smp_state) :
    (SMP.store_task_state t TSTATE_TASK_INVALID (SMP.remove_from_list t tl s)).trace =
      s.trace ++ [sched_event.unlink t tl,
        sched_event.state_store t TSTATE_TASK_INVALID] := by
  cases tl <;> simp [SMP.store_task_state, SMP.remove_from_list]

/-- The plain branch leaves both bitsets and both aggregate flags alone. -/
theorem smp_plain_bitsets (t : Nat) (tl : tasklist_t) (s : smp_state) :
    (SMP.store_task_state t TSTATE_TASK_INVALID
        (SMP.remove_from_list t tl s)).g_cpu_lockset = s.g_cpu_lockset ∧
    (SMP.store_task_state t TSTATE_TASK_INVALID
        (SMP.remove_from_list t tl s)).g_cpu_schedlock = s.g_cpu_schedlock ∧
    (SMP.store_task_state t TSTATE_TASK_INVALID
        (SMP.remove_from_list t tl s)).g_cpu_irqset = s.g_cpu_irqset ∧
    (SMP.store_task_state t TSTATE_TASK_INVALID
        (SMP.remove_from_list t tl s)).g_cpu_irqlock = s.g_cpu_irqlock := by
  cases tl <;> simp [SMP.store_task_state, SMP.remove_from_list]

/-- The plain branch leaves the header of every other list alone. -/
theorem smp_plain_other_queue (t : Nat) (tl tl2 : tasklist_t) (s : smp_state)
    (hne : tl2 ≠ tl) :
    SMP.tasklist_queue (SMP.store_task_state t TSTATE_TASK_INVALID
        (SMP.remove_from_list t tl s)) tl2 = SMP.tasklist_queue s tl2 := by
  cases tl with
  | readytorun =>
    cases tl2 with
    | readytorun => exact absurd rfl hne
    | assigned d => rfl
  | assigned c =>
    cases tl2 with
    | readytorun => rfl
    | assigned d =>
      have hdc : d ≠ c := fun e => hne (by rw [e])
      simp [SMP.tasklist_queue, SMP.store_task_state, SMP.remove_from_list, hdc]

/-- The plain branch leaves every TCB outside the list of the task alone. -/
theorem smp_plain_untouched {n : Nat} {s : smp_state} {lr : List Nat}
    {la : Nat → List Nat} {tl : tasklist_t} {t x : Nat} (h : smp_wf n s lr la)
    (hl : listed n lr la tl t) (hx : x ∉ layout_list lr la tl) :
    (SMP.store_task_state t TSTATE_TASK_INVALID (SMP.remove_from_list t tl s)).tcb x =
      s.tcb x := by
  obtain ⟨hq, hm⟩ := listed_dq_wf h hl
  have hxt : x ≠ t := fun e => hx (e ▸ hm)
  show set_task_state (SMP.remove_from_list t tl s).tcb t TSTATE_TASK_INVALID x = s.tcb x
  unfold set_task_state
  rw [if_neg hxt]
  cases tl with
  | readytorun => exact dq_rem_untouched hq hm hx
  | assigned c => exact dq_rem_untouched hq hm hx

/-! ## Claims, continued -/

/-- C11: failure on a missing successor, both variants.  When the task is at
the head of a runnable list (the ready list of the uniprocessor build, an
assigned list named by the fields of the task in SMP) and its flink is null,
the list is just that task, and the call does not complete: the successor
assertion fires, so no switch decision and no resulting state (in particular
no empty list) is produced. -/
theorem C11_missing_successor_faults
    (s : up_state) (l : List Nat) (t : Nat)
    (hwf : up_wf s l) (hh : l.head? = some t) (hfl : (s.tcb t).flink = none)
    (me c : Nat) (ss : smp_state) (la : List Nat) (u : Nat)
    (hq : dq_wf ss.tcb (ss.g_assignedtasks c) la) (hsh : la.head? = some u)
    (hf : SMP.TLIST_HEAD (ss.tcb u).task_state (ss.tcb u).cpu = tasklist_t.assigned c)
    (hsfl : (ss.tcb u).flink = none) :
    (l = [t] ∧ UP.sched_removereadytorun t s = none) ∧
    (la = [u] ∧ SMP.sched_removereadytorun me u ss = none) := by
  have sole : ∀ {m : Nat → tcb_s} {q : dq_queue_t} {l : List Nat} {t : Nat},
      dq_wf m q l → l.head? = some t → (m t).flink = none → l = [t] := by
    intro m q l t h hh hfl
    cases l with
    | nil => simp at hh
    | cons a r =>
      simp only [List.head?_cons, Option.some.injEq] at hh
      subst hh
      cases r with
      | nil => rfl
      | cons b r2 =>
        rw [dq_wf_head_flink h] at hfl
        exact absurd hfl (by simp)
  constructor
  · have hb : (s.tcb t).blink = none :=
      (dq_wf_blink_none_iff hwf (head?_mem_of_eq hh)).mpr hh
    refine ⟨sole hwf hh hfl, ?_⟩
    unfold UP.sched_removereadytorun
    rw [if_pos hb]
    simp only [hfl]
  · have hb : (ss.tcb u).blink = none :=
      (dq_wf_blink_none_iff hq (head?_mem_of_eq hsh)).mpr hsh
    have hrun := (TLIST_HEAD_eq_assigned hf).1
    refine ⟨sole hq hsh hsfl, ?_⟩
    unfold SMP.sched_removereadytorun
    simp only [hsfl]
    rw [if_pos ⟨hb, hrun⟩]

/-- C11 on two states whose runnable list holds a single task: the
uniprocessor ready list [4] and the assigned list [21] of processor 1. -/
theorem C11_missing_successor_faults_witness :
    up_wf ex_up_sole [4] ∧ dq_wf ex_smp_sole.tcb (ex_smp_sole.g_assignedtasks 1) [21] ∧
    ([4] = [4] ∧ UP.sched_removereadytorun 4 ex_up_sole = none) ∧
    ([21] = [21] ∧ SMP.sched_removereadytorun 0 21 ex_smp_sole = none) :=
  ⟨by decide, by decide,
    C11_missing_successor_faults ex_up_sole [4] 4 (by decide) (by decide) (by decide)
      0 1 ex_smp_sole [21] 21 (by decide) (by decide) (by decide) (by decide)⟩

/-- C12: SMP, remote case.  When g_assignedtasks[c] represents
t :: nx :: rest, the fields of t name that list and the caller is another
processor, the call returns false and its effects are, in this order: the
pause of c, the lockset update, the irqset update, the switch trace record,
the store of RUNNING to nx, the unlink of t from the assigned list of c, the
resume of c, and the final store of INVALID to t.  So there is exactly one
pause and exactly one resume of c, and both bitset updates, the trace record
and the unlink lie after the pause and before the resume. -/
theorem C12_smp_remote_effects_while_paused (s : smp_state) (c t nx : Nat)
    (rest : List Nat) (me : Nat)
    (hq : dq_wf s.tcb (s.g_assignedtasks c) (t :: nx :: rest))
    (hf : SMP.TLIST_HEAD (s.tcb t).task_state (s.tcb t).cpu = tasklist_t.assigned c)
    (hme : c ≠ me) :
    ∃ s2, SMP.sched_removereadytorun me t s = some (false, s2) ∧
      new_events s.trace s2.trace =
        [sched_event.cpu_pause c,
         (if 0 < (s.tcb nx).lockcount then sched_event.lockset_setbit c
          else sched_event.lockset_clrbit c),
         sched_event.irqset_setbit c,
         sched_event.note_switch t nx,
         sched_event.state_store nx TSTATE_TASK_RUNNING,
         sched_event.unlink t (tasklist_t.assigned c),
         sched_event.cpu_resume c,
         sched_event.state_store t TSTATE_TASK_INVALID] ∧
      (new_events s.trace s2.trace).count (sched_event.cpu_pause c) = 1 ∧
      (new_events s.trace s2.trace).count (sched_event.cpu_resume c) = 1 := by
  have heq := smp_remove_switch_eq me hq hf
  have hb : (SMP.switch_branch me c t nx (tasklist_t.assigned c) s).1 = false := by
    rw [(switch_branch_spec me c t nx (tasklist_t.assigned c) s).1]
    exact decide_eq_false hme
  rw [hb] at heq
  have hev : new_events s.trace (SMP.store_task_state t TSTATE_TASK_INVALID
      (SMP.switch_branch me c t nx (tasklist_t.assigned c) s).2).trace =
        [sched_event.cpu_pause c,
         (if 0 < (s.tcb nx).lockcount then sched_event.lockset_setbit c
          else sched_event.lockset_clrbit c),
         sched_event.irqset_setbit c,
         sched_event.note_switch t nx,
         sched_event.state_store nx TSTATE_TASK_RUNNING,
         sched_event.unlink t (tasklist_t.assigned c),
         sched_event.cpu_resume c,
         sched_event.state_store t TSTATE_TASK_INVALID] := by
    rw [smp_remote_trace t nx (tasklist_t.assigned c) s hme]
    exact new_events_append _ _
  have hc1 : (new_events s.trace (SMP.store_task_state t TSTATE_TASK_INVALID
      (SMP.switch_branch me c t nx (tasklist_t.assigned c) s).2).trace).count
        (sched_event.cpu_pause c) = 1 := by
    rw [hev]
    by_cases hl : 0 < (s.tcb nx).lockcount <;> simp [hl, List.count_cons]
  have hc2 : (new_events s.trace (SMP.store_task_state t TSTATE_TASK_INVALID
      (SMP.switch_branch me c t nx (tasklist_t.assigned c) s).2).trace).count
        (sched_event.cpu_resume c) = 1 := by
    rw [hev]
    by_cases hl : 0 < (s.tcb nx).lockcount <;> simp [hl, List.count_cons]
  exact ⟨_, heq, hev, hc1, hc2⟩

/-- C12 on the example state: processor 0 removes task 20, the head of the
assigned list of processor 1. -/
theorem C12_smp_remote_effects_while_paused_witness :
    dq_wf ex_smp.tcb (ex_smp.g_assignedtasks 1) [20, 21] ∧
    ∃ s2, SMP.sched_removereadytorun 0 20 ex_smp = some (false, s2) ∧
      new_events ex_smp.trace s2.trace =
        [sched_event.cpu_pause 1,
         (if 0 < (ex_smp.tcb 21).lockcount then sched_event.lockset_setbit 1
          else sched_event.lockset_clrbit 1),
         sched_event.irqset_setbit 1,
         sched_event.note_switch 20 21,
         sched_event.state_store 21 TSTATE_TASK_RUNNING,
         sched_event.unlink 20 (tasklist_t.assigned 1),
         sched_event.cpu_resume 1,
         sched_event.state_store 20 TSTATE_TASK_INVALID] ∧
      (new_events ex_smp.trace s2.trace).count (sched_event.cpu_pause 1) = 1 ∧
      (new_events ex_smp.trace s2.trace).count (sched_event.cpu_resume 1) = 1 :=
  ⟨by decide, C12_smp_remote_effects_while_paused ex_smp 1 20 21 [] 0
    (by decide) (by decide) (by decide)⟩

/-- C15: SMP, non-switch path.  In a well-formed state, when the listed task
is not a switch candidate (its list is the unassigned list, or it is not the
head of its list), the call returns false; its only effects are the unlink
and the final store of INVALID, so no processor is paused or resumed and no
switch trace record is emitted; both bitsets and both aggregate flags are
unchanged; and every other list keeps its header and its sequence, every TCB
outside the list of the task being untouched. -/
theorem C15_smp_plain_path_frame (n me : Nat) (s : smp_state) (lr : List Nat)
    (la : Nat → List Nat) (tl : tasklist_t) (t : Nat)
    (h : smp_wf n s lr la) (hl : listed n lr la tl t)
    (hns : tl = tasklist_t.readytorun ∨ (layout_list lr la tl).head? ≠ some t) :
    ∃ s2, SMP.sched_removereadytorun me t s = some (false, s2) ∧
      new_events s.trace s2.trace =
        [sched_event.unlink t tl, sched_event.state_store t TSTATE_TASK_INVALID] ∧
      (∀ e ∈ new_events s.trace s2.trace,
        (∀ c, e ≠ sched_event.cpu_pause c) ∧ (∀ c, e ≠ sched_event.cpu_resume c) ∧
        (∀ a b, e ≠ sched_event.note_switch a b)) ∧
      s2.g_cpu_lockset = s.g_cpu_lockset ∧ s2.g_cpu_schedlock = s.g_cpu_schedlock ∧
      s2.g_cpu_irqset = s.g_cpu_irqset ∧ s2.g_cpu_irqlock = s.g_cpu_irqlock ∧
      (∀ tl2, tl2 ≠ tl → SMP.tasklist_queue s2 tl2 = SMP.tasklist_queue s tl2) ∧
      (∀ x, x ∉ layout_list lr la tl → s2.tcb x = s.tcb x) ∧
      (s2.g_readytorun = s.g_readytorun ∨ tl = tasklist_t.readytorun) ∧
      (tl ≠ tasklist_t.readytorun → dq_wf s2.tcb s2.g_readytorun lr) ∧
      (∀ d < n, tl ≠ tasklist_t.assigned d → dq_wf s2.tcb (s2.g_assignedtasks d) (la d)) := by
  have hf := listed_TLIST_HEAD h hl
  obtain ⟨hq, hm⟩ := listed_dq_wf h hl
  have heq := smp_remove_plain_eq me hq hm hf hns
  have hev : new_events s.trace (SMP.store_task_state t TSTATE_TASK_INVALID
      (SMP.remove_from_list t tl s)).trace =
        [sched_event.unlink t tl, sched_event.state_store t TSTATE_TASK_INVALID] := by
    rw [smp_plain_trace]
    exact new_events_append _ _
  have hno : ∀ e ∈ new_events s.trace (SMP.store_task_state t TSTATE_TASK_INVALID
      (SMP.remove_from_list t tl s)).trace,
        (∀ c, e ≠ sched_event.cpu_pause c) ∧ (∀ c, e ≠ sched_event.cpu_resume c) ∧
        (∀ a b, e ≠ sched_event.note_switch a b) := by
    rw [hev]
    intro e he
    simp only [List.mem_cons, List.mem_singleton, List.not_mem_nil, or_false] at he
    rcases he with he | he <;> subst he <;> simp
  have hbits := smp_plain_bitsets t tl s
  have hwf2 := smp_plain_wf h hl
  have hrq : (SMP.store_task_state t TSTATE_TASK_INVALID
      (SMP.remove_from_list t tl s)).g_readytorun = s.g_readytorun ∨
      tl = tasklist_t.readytorun := by
    cases tl with
    | readytorun => exact Or.inr rfl
    | assigned c => exact Or.inl rfl
  have hr : tl ≠ tasklist_t.readytorun → dq_wf (SMP.store_task_state t TSTATE_TASK_INVALID
      (SMP.remove_from_list t tl s)).tcb (SMP.store_task_state t TSTATE_TASK_INVALID
      (SMP.remove_from_list t tl s)).g_readytorun lr := by
    intro hne
    have htr : t ∉ lr := by
      cases tl with
      | readytorun => exact absurd rfl hne
      | assigned c => exact h.2.2.1 c hl.1 t hl.2
    have := hwf2.1
    rw [List.erase_of_not_mem htr] at this
    exact this
  have ha : ∀ d < n, tl ≠ tasklist_t.assigned d →
      dq_wf (SMP.store_task_state t TSTATE_TASK_INVALID
        (SMP.remove_from_list t tl s)).tcb ((SMP.store_task_state t TSTATE_TASK_INVALID
        (SMP.remove_from_list t tl s)).g_assignedtasks d) (la d) := by
    intro d hd hne
    have htd : t ∉ la d := fun e => hne (listed_unique h hl hd e)
    have := hwf2.2.1 d hd
    unfold erase_assigned at this
    rw [List.erase_of_not_mem htd] at this
    exact this
  exact ⟨_, heq, hev, hno, hbits.1, hbits.2.1, hbits.2.2.1, hbits.2.2.2,
    fun tl2 hne => smp_plain_other_queue t tl tl2 s hne,
    fun x hx => smp_plain_untouched h hl hx, hrq, hr, ha⟩

/-- C15 on the example state: processor 1 removes task 11, which is second
on the assigned list of processor 0. -/
theorem C15_smp_plain_path_frame_witness :
    smp_wf 2 ex_smp [30, 31] ex_smp_la ∧
    ∃ s2, SMP.sched_removereadytorun 1 11 ex_smp = some (false, s2) ∧
      new_events ex_smp.trace s2.trace =
        [sched_event.unlink 11 (tasklist_t.assigned 0),
         sched_event.state_store 11 TSTATE_TASK_INVALID] ∧
      (∀ e ∈ new_events ex_smp.trace s2.trace,
        (∀ c, e ≠ sched_event.cpu_pause c) ∧ (∀ c, e ≠ sched_event.cpu_resume c) ∧
        (∀ a b, e ≠ sched_event.note_switch a b)) ∧
      s2.g_cpu_lockset = ex_smp.g_cpu_lockset ∧
      s2.g_cpu_schedlock = ex_smp.g_cpu_schedlock ∧
      s2.g_cpu_irqset = ex_smp.g_cpu_irqset ∧ s2.g_cpu_irqlock = ex_smp.g_cpu_irqlock ∧
      (∀ tl2, tl2 ≠ tasklist_t.assigned 0 →
        SMP.tasklist_queue s2 tl2 = SMP.tasklist_queue ex_smp tl2) ∧
      (∀ x, x ∉ layout_list [30, 31] ex_smp_la (tasklist_t.assigned 0) →
        s2.tcb x = ex_smp.tcb x) ∧
      (s2.g_readytorun = ex_smp.g_readytorun ∨
        tasklist_t.assigned 0 = tasklist_t.readytorun) ∧
      (tasklist_t.assigned 0 ≠ tasklist_t.readytorun →
        dq_wf s2.tcb s2.g_readytorun [30, 31]) ∧
      (∀ d < 2, tasklist_t.assigned 0 ≠ tasklist_t.assigned d →
        dq_wf s2.tcb (s2.g_assignedtasks d) (ex_smp_la d)) :=
  ⟨by decide, C15_smp_plain_path_frame 2 1 ex_smp [30, 31] ex_smp_la
    (tasklist_t.assigned 0) 11 (by decide) (by decide) (Or.inr (by decide))⟩

/-- C16: uniprocessor switch trace record.  For a well-formed ready list and
a listed task that is not its sole entry, the call returns; it returns true
exactly when the task is the head, and then it emits exactly one switch trace
record, with arguments (removed task, its former successor); otherwise it
returns false and emits none. -/
theorem C16_up_switch_note_iff_true (s : up_state) (l : List Nat) (t : Nat)
    (hwf : up_wf s l) (ht : t ∈ l) (hret : l ≠ [t]) :
    ∃ b s2, UP.sched_removereadytorun t s = some (b, s2) ∧
      ((b = true ∧ l.head? = some t ∧
          ∃ nx, dq_next l t = some nx ∧
            switch_notes (new_events s.trace s2.trace) = [(t, nx)]) ∨
       (b = false ∧ l.head? ≠ some t ∧
          switch_notes (new_events s.trace s2.trace) = [])) := by
  rcases up_remove_cases hwf ht hret with ⟨nx, rest, hl, heq⟩ | ⟨hnh, heq⟩
  · have hev : switch_notes (new_events s.trace
        (UP.finish t true (UP.store_task_state nx TSTATE_TASK_RUNNING
          (UP.sched_note_switch t nx s))).2.trace) = [(t, nx)] := by
      rw [up_switch_trace, new_events_append]
      simp [switch_notes]
    have hnx : dq_next l t = some nx := by
      rw [hl, dq_next_cons]
      simp
    exact ⟨true, _, heq, Or.inl ⟨rfl, by rw [hl]; rfl, nx, hnx, hev⟩⟩
  · have hev : switch_notes (new_events s.trace (UP.finish t false s).2.trace) = [] := by
      rw [up_plain_trace, new_events_append]
      simp [switch_notes]
    exact ⟨false, _, heq, Or.inr ⟨rfl, hnh, hev⟩⟩

/-- C16 on the scenario of the spec: removing A from [A, B, C, idle]. -/
theorem C16_up_switch_note_iff_true_witness :
    up_wf ex_up_abci [1, 2, 3, 4] ∧
    ∃ b s2, UP.sched_removereadytorun 1 ex_up_abci = some (b, s2) ∧
      ((b = true ∧ [1, 2, 3, 4].head? = some 1 ∧
          ∃ nx, dq_next [1, 2, 3, 4] 1 = some nx ∧
            switch_notes (new_events ex_up_abci.trace s2.trace) = [(1, nx)]) ∨
       (b = false ∧ [1, 2, 3, 4].head? ≠ some 1 ∧
          switch_notes (new_events ex_up_abci.trace s2.trace) = [])) :=
  ⟨by decide, C16_up_switch_note_iff_true ex_up_abci [1, 2, 3, 4] 1
    (by decide) (by decide) (by decide)⟩

/-- C14: task_state frame, both variants.  For a well-formed state and a
listed task whose call returns, the removed task ends INVALID, and any other
task whose task_state differs after the call is the successor of the removed
task, the removed task was the head of a runnable list (the ready list in
the uniprocessor build, an assigned list in SMP), and the new state of that
successor is RUNNING.  Every other task keeps its task_state. -/
theorem C14_task_state_frame
    (s : up_state) (l : List Nat) (t : Nat)
    (hwf : up_wf s l) (ht : t ∈ l) (hret : l ≠ [t])
    (n me : Nat) (ss : smp_state) (lr : List Nat) (la : Nat → List Nat)
    (tl : tasklist_t) (u : Nat)
    (hswf : smp_wf n ss lr la) (hl : listed n lr la tl u)
    (hsret : ∀ c, tl = tasklist_t.assigned c → la c ≠ [u]) :
    (∃ b s2, UP.sched_removereadytorun t s = some (b, s2) ∧
      (s2.tcb t).task_state = TSTATE_TASK_INVALID ∧
      ∀ x, x ≠ t → (s2.tcb x).task_state ≠ (s.tcb x).task_state →
        l.head? = some t ∧ dq_next l t = some x ∧
        (s2.tcb x).task_state = TSTATE_TASK_RUNNING) ∧
    (∃ b s2, SMP.sched_removereadytorun me u ss = some (b, s2) ∧
      (s2.tcb u).task_state = TSTATE_TASK_INVALID ∧
      ∀ x, x ≠ u → (s2.tcb x).task_state ≠ (ss.tcb x).task_state →
        (∃ c, tl = tasklist_t.assigned c ∧ (la c).head? = some u ∧
          dq_next (la c) u = some x) ∧
        (s2.tcb x).task_state = TSTATE_TASK_RUNNING) := by
  constructor
  · rcases up_remove_cases hwf ht hret with ⟨nx, rest, hl2, heq⟩ | ⟨_, heq⟩
    · have hfr : ∀ x, x ≠ t →
          ((UP.finish t true (UP.store_task_state nx TSTATE_TASK_RUNNING
            (UP.sched_note_switch t nx s))).2.tcb x).task_state ≠ (s.tcb x).task_state →
          l.head? = some t ∧ dq_next l t = some x ∧
          ((UP.finish t true (UP.store_task_state nx TSTATE_TASK_RUNNING
            (UP.sched_note_switch t nx s))).2.tcb x).task_state = TSTATE_TASK_RUNNING := by
        intro x hx
        rw [up_finish_task_state t true _ x, if_neg hx, up_mark_running_state]
        by_cases hxn : x = nx
        · intro _
          rw [if_pos hxn, hl2, hxn, dq_next_cons]
          simp
        · rw [if_neg hxn]
          intro hne
          exact absurd rfl hne
      exact ⟨true, _, heq, (up_finish_task_state t true _ t).trans (if_pos rfl), hfr⟩
    · have hfr : ∀ x, x ≠ t →
          ((UP.finish t false s).2.tcb x).task_state ≠ (s.tcb x).task_state →
          l.head? = some t ∧ dq_next l t = some x ∧
          ((UP.finish t false s).2.tcb x).task_state = TSTATE_TASK_RUNNING := by
        intro x hx
        rw [up_finish_task_state t false _ x, if_neg hx]
        intro hne
        exact absurd rfl hne
      exact ⟨false, _, heq, (up_finish_task_state t false _ t).trans (if_pos rfl), hfr⟩
  · rcases smp_remove_cases me hswf hl hsret with ⟨c, nx, rest, htl, hc, hla, heq⟩ | ⟨_, heq⟩
    · refine ⟨_, _, heq, (smp_switch_task_state _ _ _ _ _ _ _).trans (if_pos rfl), ?_⟩
      intro x hx
      rw [smp_switch_task_state, if_neg hx]
      by_cases hxn : x = nx
      · intro _
        rw [if_pos hxn]
        refine ⟨⟨c, htl, ?_, ?_⟩, rfl⟩
        · rw [hla]; rfl
        · rw [hla, hxn, dq_next_cons]
          simp
      · rw [if_neg hxn]
        intro hne
        exact absurd rfl hne
    · refine ⟨_, _, heq, (smp_plain_task_state _ _ _ _).trans (if_pos rfl), ?_⟩
      intro x hx
      rw [smp_plain_task_state, if_neg hx]
      intro hne
      exact absurd rfl hne

/-- C14 on the example states: the uniprocessor call removes A from
[A, B, C, idle]; the SMP call, made by processor 0, removes task 20, the
head of the assigned list of processor 1. -/
theorem C14_task_state_frame_witness :
    (∃ b s2, UP.sched_removereadytorun 1 ex_up_abci = some (b, s2) ∧
      (s2.tcb 1).task_state = TSTATE_TASK_INVALID ∧
      ∀ x, x ≠ 1 → (s2.tcb x).task_state ≠ (ex_up_abci.tcb x).task_state →
        [1, 2, 3, 4].head? = some 1 ∧ dq_next [1, 2, 3, 4] 1 = some x ∧
        (s2.tcb x).task_state = TSTATE_TASK_RUNNING) ∧
    (∃ b s2, SMP.sched_removereadytorun 0 20 ex_smp = some (b, s2) ∧
      (s2.tcb 20).task_state = TSTATE_TASK_INVALID ∧
      ∀ x, x ≠ 20 → (s2.tcb x).task_state ≠ (ex_smp.tcb x).task_state →
        (∃ c, tasklist_t.assigned 1 = tasklist_t.assigned c ∧
          (ex_smp_la c).head? = some 20 ∧ dq_next (ex_smp_la c) 20 = some x) ∧
        (s2.tcb x).task_state = TSTATE_TASK_RUNNING) :=
  C14_task_state_frame ex_up_abci [1, 2, 3, 4] 1
    (by decide) (by decide) (by decide)
    2 0 ex_smp [30, 31] ex_smp_la (tasklist_t.assigned 1) 20
    (by decide) (by decide)
    (by intro c h; injection h with h; subst h; decide)

/-- C17: order preservation, both variants.  For a well-formed state and a
listed task whose call returns, every list of the resulting state represents
the original sequence with that task erased; the new sequence is a
subsequence of the old one, so the remaining tasks keep their relative
order; and for any priority assignment, a list in descending priority order
before the call is in descending priority order after it. -/
theorem C17_order_preserved
    (s : up_state) (l : List Nat) (t : Nat)
    (hwf : up_wf s l) (ht : t ∈ l) (hret : l ≠ [t])
    (n me : Nat) (ss : smp_state) (lr : List Nat) (la : Nat → List Nat)
    (tl : tasklist_t) (u : Nat)
    (hswf : smp_wf n ss lr la) (hl : listed n lr la tl u)
    (hsret : ∀ c, tl = tasklist_t.assigned c → la c ≠ [u]) :
    (∃ b s2, UP.sched_removereadytorun t s = some (b, s2) ∧
      up_wf s2 (l.erase t) ∧ (l.erase t).Sublist l ∧
      ∀ prio : Nat → Nat, l.Pairwise (fun a b => prio b ≤ prio a) →
        (l.erase t).Pairwise (fun a b => prio b ≤ prio a)) ∧
    (∃ b s2, SMP.sched_removereadytorun me u ss = some (b, s2) ∧
      smp_wf n s2 (lr.erase u) (erase_assigned la u) ∧
      ∀ tl2, layout_list (lr.erase u) (erase_assigned la u) tl2 =
          (layout_list lr la tl2).erase u ∧
        ((layout_list lr la tl2).erase u).Sublist (layout_list lr la tl2) ∧
        ∀ prio : Nat → Nat,
          (layout_list lr la tl2).Pairwise (fun a b => prio b ≤ prio a) →
          ((layout_list lr la tl2).erase u).Pairwise (fun a b => prio b ≤ prio a)) := by
  have hsorted : ∀ (l : List Nat) (t : Nat) (prio : Nat → Nat),
      l.Pairwise (fun a b => prio b ≤ prio a) →
      (l.erase t).Pairwise (fun a b => prio b ≤ prio a) :=
    fun l t _ hp => List.Pairwise.sublist (List.erase_sublist t l) hp
  constructor
  · rcases up_remove_cases hwf ht hret with ⟨nx, rest, _, heq⟩ | ⟨_, heq⟩
    · exact ⟨true, _, heq, up_finish_wf true (up_mark_running_wf t nx hwf) ht,
        List.erase_sublist t l, hsorted l t⟩
    · exact ⟨false, _, heq, up_finish_wf false hwf ht, List.erase_sublist t l, hsorted l t⟩
  · have hlay : ∀ tl2, layout_list (lr.erase u) (erase_assigned la u) tl2 =
          (layout_list lr la tl2).erase u ∧
        ((layout_list lr la tl2).erase u).Sublist (layout_list lr la tl2) ∧
        ∀ prio : Nat → Nat,
          (layout_list lr la tl2).Pairwise (fun a b => prio b ≤ prio a) →
          ((layout_list lr la tl2).erase u).Pairwise (fun a b => prio b ≤ prio a) := by
      intro tl2
      refine ⟨?_, List.erase_sublist u _, hsorted _ u⟩
      cases tl2 <;> rfl
    rcases smp_remove_cases me hswf hl hsret with ⟨c, nx, rest, htl, hc, hla, heq⟩ | ⟨_, heq⟩
    · have hu : u ∈ la c := by rw [hla]; simp
      have hnx : nx ∈ la c := by rw [hla]; simp
      exact ⟨_, _, heq, smp_switch_wf me hswf hc hu hnx, hlay⟩
    · exact ⟨_, _, heq, smp_plain_wf hswf hl, hlay⟩

/-- C17 on the example states: the uniprocessor call removes C from
[B, C, idle]; the SMP call, made by processor 1, removes task 11 from the
assigned list of processor 0. -/
theorem C17_order_preserved_witness :
    (∃ b s2, UP.sched_removereadytorun 3 ex_up_bci = some (b, s2) ∧
      up_wf s2 ([2, 3, 4].erase 3) ∧ ([2, 3, 4].erase 3).Sublist [2, 3, 4] ∧
      ∀ prio : Nat → Nat, [2, 3, 4].Pairwise (fun a b => prio b ≤ prio a) →
        ([2, 3, 4].erase 3).Pairwise (fun a b => prio b ≤ prio a)) ∧
    (∃ b s2, SMP.sched_removereadytorun 1 11 ex_smp = some (b, s2) ∧
      smp_wf 2 s2 ([30, 31].erase 11) (erase_assigned ex_smp_la 11) ∧
      ∀ tl2, layout_list ([30, 31].erase 11) (erase_assigned ex_smp_la 11) tl2 =
          (layout_list [30, 31] ex_smp_la tl2).erase 11 ∧
        ((layout_list [30, 31] ex_smp_la tl2).erase 11).Sublist
          (layout_list [30, 31] ex_smp_la tl2) ∧
        ∀ prio : Nat → Nat,
          (layout_list [30, 31] ex_smp_la tl2).Pairwise (fun a b => prio b ≤ prio a) →
          ((layout_list [30, 31] ex_smp_la tl2).erase 11).Pairwise
            (fun a b => prio b ≤ prio a)) :=
  C17_order_preserved ex_up_bci [2, 3, 4] 3
    (by decide) (by decide) (by decide)
    2 1 ex_smp [30, 31] ex_smp_la (tasklist_t.assigned 0) 11
    (by decide) (by decide)
    (by intro c h; injection h with h; subst h; decide)

/-- The uniprocessor call on the sole entry of the ready list fires the
assertion. -/
theorem up_remove_sole_eq {s : up_state} {t : Nat} (hwf : up_wf s [t]) :
    UP.sched_removereadytorun t s = none := by
  have hb : (s.tcb t).blink = none :=
    (dq_wf_blink_none_iff hwf (List.mem_singleton.mpr rfl)).mpr rfl
  have hfl : (s.tcb t).flink = none := by
    rw [(hwf.2.2.2 t (List.mem_singleton.mpr rfl)).1]
    rfl
  unfold UP.sched_removereadytorun
  rw [if_pos hb]
  simp only [hfl]

/-- The SMP call on the sole entry of an assigned list fires the assertion. -/
theorem smp_remove_sole_eq {s : smp_state} {c t : Nat} (me : Nat)
    (hq : dq_wf s.tcb (s.g_assignedtasks c) [t])
    (hf : SMP.TLIST_HEAD (s.tcb t).task_state (s.tcb t).cpu = tasklist_t.assigned c) :
    SMP.sched_removereadytorun me t s = none := by
  have hb : (s.tcb t).blink = none :=
    (dq_wf_blink_none_iff hq (List.mem_singleton.mpr rfl)).mpr rfl
  have hfl : (s.tcb t).flink = none := by
    rw [(hq.2.2.2 t (List.mem_singleton.mpr rfl)).1]
    rfl
  have hrun := (TLIST_HEAD_eq_assigned hf).1
  unfold SMP.sched_removereadytorun
  simp only [hfl]
  rw [if_pos ⟨hb, hrun⟩]

/-- C18: uniprocessor/SMP agreement.  Take a well-formed list l and a task t
on it, an SMP state in which l is the assigned list of the calling processor
me and the fields of t name that list, and a uniprocessor state with the
same TCB store in which l is g_readytorun.  Then either l is just t and both
calls fire the assertion, or both calls return, with the same return value,
the same TCB store afterwards (so the same task_state for every task), and
the same resulting queue, which represents l with t erased. -/
theorem C18_up_smp_agree (s : up_state) (ss : smp_state) (me : Nat) (l : List Nat)
    (t : Nat)
    (hs : s.tcb = ss.tcb) (hsq : s.g_readytorun = ss.g_assignedtasks me)
    (hq : dq_wf ss.tcb (ss.g_assignedtasks me) l) (ht : t ∈ l)
    (hf : SMP.TLIST_HEAD (ss.tcb t).task_state (ss.tcb t).cpu = tasklist_t.assigned me) :
    (l = [t] ∧ UP.sched_removereadytorun t s = none ∧
      SMP.sched_removereadytorun me t ss = none) ∨
    (l ≠ [t] ∧ ∃ b s2 ss2, UP.sched_removereadytorun t s = some (b, s2) ∧
      SMP.sched_removereadytorun me t ss = some (b, ss2) ∧
      s2.tcb = ss2.tcb ∧
      (∀ x, (s2.tcb x).task_state = (ss2.tcb x).task_state) ∧
      s2.g_readytorun = ss2.g_assignedtasks me ∧
      up_wf s2 (l.erase t) ∧
      dq_wf ss2.tcb (ss2.g_assignedtasks me) (l.erase t)) := by
  have hwf : up_wf s l := by
    unfold up_wf
    rw [hs, hsq]
    exact hq
  by_cases hsole : l = [t]
  · left
    subst hsole
    exact ⟨rfl, up_remove_sole_eq hwf, smp_remove_sole_eq me hq hf⟩
  · right
    refine ⟨hsole, ?_⟩
    rcases up_remove_cases hwf ht hsole with ⟨nx, rest, hl, heq⟩ | ⟨hnh, heq⟩
    · subst hl
      have heq2 := smp_remove_switch_eq me hq hf
      have hsp := switch_branch_spec me me t nx (tasklist_t.assigned me) ss
      have hb : (SMP.switch_branch me me t nx (tasklist_t.assigned me) ss).1 = true := by
        rw [hsp.1]
        exact decide_eq_true rfl
      rw [hb] at heq2
      have htcb : (UP.finish t true (UP.store_task_state nx TSTATE_TASK_RUNNING
          (UP.sched_note_switch t nx s))).2.tcb =
          (SMP.store_task_state t TSTATE_TASK_INVALID
            (SMP.switch_branch me me t nx (tasklist_t.assigned me) ss).2).tcb := by
        show set_task_state (dq_rem t (set_task_state s.tcb nx TSTATE_TASK_RUNNING)
            s.g_readytorun).1 t TSTATE_TASK_INVALID =
          set_task_state (SMP.switch_branch me me t nx (tasklist_t.assigned me) ss).2.tcb
            t TSTATE_TASK_INVALID
        rw [hsp.2.1, hs, hsq]
        rfl
      have hque : (UP.finish t true (UP.store_task_state nx TSTATE_TASK_RUNNING
          (UP.sched_note_switch t nx s))).2.g_readytorun =
          (SMP.store_task_state t TSTATE_TASK_INVALID
            (SMP.switch_branch me me t nx (tasklist_t.assigned me) ss).2).g_assignedtasks
              me := by
        show (dq_rem t (set_task_state s.tcb nx TSTATE_TASK_RUNNING) s.g_readytorun).2 =
          (SMP.switch_branch me me t nx (tasklist_t.assigned me) ss).2.g_assignedtasks me
        rw [hsp.2.2.2.1, hs, hsq]
        simp [SMP.remove_from_list, SMP.store_task_state]
      have hw := up_finish_wf true (up_mark_running_wf t nx hwf) ht
      have hw2 : dq_wf (SMP.store_task_state t TSTATE_TASK_INVALID
          (SMP.switch_branch me me t nx (tasklist_t.assigned me) ss).2).tcb
          ((SMP.store_task_state t TSTATE_TASK_INVALID
            (SMP.switch_branch me me t nx (tasklist_t.assigned me) ss).2).g_assignedtasks me)
          ((t :: nx :: rest).erase t) := by
        rw [← htcb, ← hque]
        exact hw
      exact ⟨true, _, _, heq, heq2, htcb,
        fun x => congrArg tcb_s.task_state (congrFun htcb x), hque, hw, hw2⟩
    · have hq2 : dq_wf ss.tcb (SMP.tasklist_queue ss (tasklist_t.assigned me)) l := hq
      have heq2 := smp_remove_plain_eq me hq2 ht hf (Or.inr hnh)
      have htcb : (UP.finish t false s).2.tcb =
          (SMP.store_task_state t TSTATE_TASK_INVALID
            (SMP.remove_from_list t (tasklist_t.assigned me) ss)).tcb := by
        show set_task_state (dq_rem t s.tcb s.g_readytorun).1 t TSTATE_TASK_INVALID =
          set_task_state (dq_rem t ss.tcb (ss.g_assignedtasks me)).1 t TSTATE_TASK_INVALID
        rw [hs, hsq]
      have hque : (UP.finish t false s).2.g_readytorun =
          (SMP.store_task_state t TSTATE_TASK_INVALID
            (SMP.remove_from_list t (tasklist_t.assigned me) ss)).g_assignedtasks me := by
        show (dq_rem t s.tcb s.g_readytorun).2 =
          (SMP.remove_from_list t (tasklist_t.assigned me) ss).g_assignedtasks me
        rw [hs, hsq]
        simp [SMP.remove_from_list]
      have hw := up_finish_wf false hwf ht
      have hw2 : dq_wf (SMP.store_task_state t TSTATE_TASK_INVALID
          (SMP.remove_from_list t (tasklist_t.assigned me) ss)).tcb
          ((SMP.store_task_state t TSTATE_TASK_INVALID
            (SMP.remove_from_list t (tasklist_t.assigned me) ss)).g_assignedtasks me)
          (l.erase t) := by
        rw [← htcb, ← hque]
        exact hw
      exact ⟨false, _, _, heq, heq2, htcb,
        fun x => congrArg tcb_s.task_state (congrFun htcb x), hque, hw, hw2⟩

/-- C18 on the example: the assigned list [10, 11, 12] of processor 0, once
as that list in the SMP state with processor 0 calling, once as g_readytorun
of a uniprocessor state over the same TCB store; task 10 is removed. -/
theorem C18_up_smp_agree_witness :
    dq_wf ex_smp.tcb (ex_smp.g_assignedtasks 0) [10, 11, 12] ∧
    (([10, 11, 12] = [10] ∧ UP.sched_removereadytorun 10 ex_up_of_smp = none ∧
      SMP.sched_removereadytorun 0 10 ex_smp = none) ∨
    ([10, 11, 12] ≠ [10] ∧ ∃ b s2 ss2,
      UP.sched_removereadytorun 10 ex_up_of_smp = some (b, s2) ∧
      SMP.sched_removereadytorun 0 10 ex_smp = some (b, ss2) ∧
      s2.tcb = ss2.tcb ∧
      (∀ x, (s2.tcb x).task_state = (ss2.tcb x).task_state) ∧
      s2.g_readytorun = ss2.g_assignedtasks 0 ∧
      up_wf s2 ([10, 11, 12].erase 10) ∧
      dq_wf ss2.tcb (ss2.g_assignedtasks 0) ([10, 11, 12].erase 10))) :=
  ⟨by decide, C18_up_smp_agree ex_up_of_smp ex_smp 0 [10, 11, 12] 10 rfl rfl
    (by decide) (by decide) (by decide)⟩

/-- In the switch case the points of a call are those of the switch branch
followed by the state after the final store. -/
theorem smp_switch_call_points {s : smp_state} {c t nx : Nat} {rest : List Nat} (me : Nat)
    (hq : dq_wf s.tcb (s.g_assignedtasks c) (t :: nx :: rest))
    (hf : SMP.TLIST_HEAD (s.tcb t).task_state (s.tcb t).cpu = tasklist_t.assigned c) :
    SMP.call_points me t s =
      SMP.switch_points me c t nx (tasklist_t.assigned c) s ++
        [SMP.store_task_state t TSTATE_TASK_INVALID
          (SMP.switch_branch me c t nx (tasklist_t.assigned c) s).2] := by
  obtain ⟨hrun, hcpu⟩ := TLIST_HEAD_eq_assigned hf
  have hb : (s.tcb t).blink = none := (dq_wf_blink_none_iff hq (by simp)).mpr (by simp)
  have hfl : (s.tcb t).flink = some nx := dq_wf_head_flink hq
  rw [hcpu] at hf
  unfold SMP.call_points
  simp only [hcpu, hf, hfl]
  rw [if_pos ⟨hb, hrun⟩]

/-- The last point of the switch branch is the state the branch returns. -/
theorem switch_points_last (me c t nx : Nat) (tl : tasklist_t) (s : smp_state) :
    (SMP.switch_points me c t nx tl s).getLast? =
      some (SMP.switch_branch me c t nx tl s).2 := by
  unfold SMP.switch_points SMP.switch_branch
  by_cases hme : c = me <;> simp [hme]

/-- The state right after the resume in the remote case: the list of c
represents the old list without its head, and the removed task still has the
task_state it had on entry. -/
theorem smp_switch_branch_state {s : smp_state} {c t nx : Nat} {rest : List Nat} (me : Nat)
    (hq : dq_wf s.tcb (s.g_assignedtasks c) (t :: nx :: rest)) :
    dq_wf (SMP.switch_branch me c t nx (tasklist_t.assigned c) s).2.tcb
      ((SMP.switch_branch me c t nx (tasklist_t.assigned c) s).2.g_assignedtasks c)
      (nx :: rest) ∧
    ((SMP.switch_branch me c t nx (tasklist_t.assigned c) s).2.tcb t).task_state =
      (s.tcb t).task_state := by
  have hnt : t ≠ nx := by
    have hnd : (t :: nx :: rest).Nodup := hq.1
    intro e
    rw [e] at hnd
    simp at hnd
  have h5 : dq_wf (set_task_state s.tcb nx TSTATE_TASK_RUNNING) (s.g_assignedtasks c)
      (t :: nx :: rest) := dq_wf_set_task_state _ _ hq
  have h6 := dq_rem_wf h5 (List.mem_cons_self t (nx :: rest))
  rw [List.erase_cons_head] at h6
  have hsp := switch_branch_spec me c t nx (tasklist_t.assigned c) s
  constructor
  · rw [hsp.2.1, hsp.2.2.2.1]
    simpa [SMP.remove_from_list, SMP.store_task_state] using h6
  · rw [hsp.2.1, (smp_remove_fields _ _ _ _).1]
    show (set_task_state s.tcb nx TSTATE_TASK_RUNNING t).task_state = _
    rw [set_task_state_state, if_neg hnt]

/-- The effects of the SMP switch branch up to and including the resume, in
order, when the list belongs to another processor. -/
theorem smp_remote_branch_trace {me c : Nat} (t nx : Nat) (tl : tasklist_t)
    (s : smp_state) (hme : c ≠ me) :
    (SMP.switch_branch me c t nx tl s).2.trace =
      s.trace ++ [sched_event.cpu_pause c,
        (if 0 < (s.tcb nx).lockcount then sched_event.lockset_setbit c
         else sched_event.lockset_clrbit c),
        sched_event.irqset_setbit c,
        sched_event.note_switch t nx,
        sched_event.state_store nx TSTATE_TASK_RUNNING,
        sched_event.unlink t tl,
        sched_event.cpu_resume c] := by
  unfold SMP.switch_branch
  by_cases hl : 0 < (s.tcb nx).lockcount <;> cases tl <;>
    simp [hme, hl, SMP.up_cpu_pause, SMP.up_cpu_resume, SMP.lockset_setbit,
      SMP.lockset_clrbit, SMP.irqset_setbit, SMP.sched_note_switch, SMP.store_task_state,
      SMP.remove_from_list]

/-- In the remote case every point of the switch branch is the entry state,
or a point at which the processor is paused, or the state the branch
returns. -/
theorem switch_points_remote {me c : Nat} (t nx : Nat) (tl : tasklist_t) (s : smp_state)
    (hme : c ≠ me) :
    ∀ σ ∈ SMP.switch_points me c t nx tl s,
      σ = s ∨ cpu_paused c (new_events s.trace σ.trace) = true ∨
      σ = (SMP.switch_branch me c t nx tl s).2 := by
  intro σ hσ
  by_cases hl : 0 < (s.tcb nx).lockcount <;> cases tl <;>
    (simp only [SMP.switch_points, ne_eq, hme, not_false_eq_true, if_true,
      List.mem_cons, List.mem_singleton, List.not_mem_nil, or_false] at hσ
     rcases hσ with h | h | h | h | h | h | h | h <;> subst h
     · exact Or.inl rfl
     all_goals first
       | (right; left
          simp [SMP.up_cpu_pause, SMP.up_cpu_resume, SMP.lockset_setbit,
            SMP.lockset_clrbit, SMP.irqset_setbit, SMP.sched_note_switch,
            SMP.store_task_state, SMP.remove_from_list, new_events, cpu_paused, hl]
          done)
       | (right; right
          unfold SMP.switch_branch
          simp [hme]))

/-- C13, the claim at a concrete input: in the well-formed example state task
20 is RUNNING at the head of the assigned list [20, 21] of processor 1 and
processor 0 makes the call, which returns.  The point of the call right
after the resume of processor 1 is a point at which processor 1 is not
paused, task 20 is already unlinked (the list represents [21]) and its
task_state is still RUNNING. -/
theorem C13_unlinked_running_at_resume :
    smp_wf 2 ex_smp [30, 31] ex_smp_la ∧ ex_smp_la 1 = [20, 21] ∧
    (ex_smp.tcb 20).task_state = TSTATE_TASK_RUNNING ∧
    (SMP.sched_removereadytorun 0 20 ex_smp).isSome = true ∧
    ∃ σ ∈ SMP.call_points 0 20 ex_smp,
      cpu_paused 1 (new_events ex_smp.trace σ.trace) = false ∧
      (new_events ex_smp.trace σ.trace).getLast? = some (sched_event.cpu_resume 1) ∧
      dq_wf σ.tcb (σ.g_assignedtasks 1) [21] ∧ 20 ∉ [21] ∧
      (σ.tcb 20).task_state = TSTATE_TASK_RUNNING := by
  decide

/-- C13 as amended: SMP, remote case.  The call returns false and its last
point is the returned state.  At every point of the call at which processor
c is not paused, one of three holds: it is the entry point (no effect yet,
the task still heads its list with its task_state unchanged); or it is the
point right after the resume of c, where the task is already unlinked and
still has the task_state it had on entry; or it is the point after the final
store, where the task is unlinked and its task_state is INVALID. -/
theorem C13_smp_remote_unpaused_points (s : smp_state) (c t nx : Nat)
    (rest : List Nat) (me : Nat)
    (hq : dq_wf s.tcb (s.g_assignedtasks c) (t :: nx :: rest))
    (hf : SMP.TLIST_HEAD (s.tcb t).task_state (s.tcb t).cpu = tasklist_t.assigned c)
    (hme : c ≠ me) :
    ∃ s2, SMP.sched_removereadytorun me t s = some (false, s2) ∧
      (SMP.call_points me t s).getLast? = some s2 ∧
      (s2.tcb t).task_state = TSTATE_TASK_INVALID ∧
      ∀ σ ∈ SMP.call_points me t s,
        cpu_paused c (new_events s.trace σ.trace) = false →
        (new_events s.trace σ.trace = [] ∧
          dq_wf σ.tcb (σ.g_assignedtasks c) (t :: nx :: rest) ∧
          (σ.tcb t).task_state = (s.tcb t).task_state) ∨
        ((new_events s.trace σ.trace).getLast? = some (sched_event.cpu_resume c) ∧
          dq_wf σ.tcb (σ.g_assignedtasks c) (nx :: rest) ∧
          (σ.tcb t).task_state = (s.tcb t).task_state) ∨
        ((new_events s.trace σ.trace).getLast? =
            some (sched_event.state_store t TSTATE_TASK_INVALID) ∧
          dq_wf σ.tcb (σ.g_assignedtasks c) (nx :: rest) ∧
          (σ.tcb t).task_state = TSTATE_TASK_INVALID) := by
  have heq := smp_remove_switch_eq me hq hf
  have hb : (SMP.switch_branch me c t nx (tasklist_t.assigned c) s).1 = false := by
    rw [(switch_branch_spec me c t nx (tasklist_t.assigned c) s).1]
    exact decide_eq_false hme
  rw [hb] at heq
  have hpts := smp_switch_call_points me hq hf
  have hlast : (SMP.call_points me t s).getLast? =
      some (SMP.store_task_state t TSTATE_TASK_INVALID
        (SMP.switch_branch me c t nx (tasklist_t.assigned c) s).2) := by
    rw [hpts]
    simp
  have hinv := (smp_switch_task_state me c t nx (tasklist_t.assigned c) s t).trans
    (if_pos rfl)
  have hfin := smp_switch_list_wf me hq
  have hres := smp_switch_branch_state me hq
  have hall : ∀ σ ∈ SMP.call_points me t s,
      cpu_paused c (new_events s.trace σ.trace) = false →
      (new_events s.trace σ.trace = [] ∧
        dq_wf σ.tcb (σ.g_assignedtasks c) (t :: nx :: rest) ∧
        (σ.tcb t).task_state = (s.tcb t).task_state) ∨
      ((new_events s.trace σ.trace).getLast? = some (sched_event.cpu_resume c) ∧
        dq_wf σ.tcb (σ.g_assignedtasks c) (nx :: rest) ∧
        (σ.tcb t).task_state = (s.tcb t).task_state) ∨
      ((new_events s.trace σ.trace).getLast? =
          some (sched_event.state_store t TSTATE_TASK_INVALID) ∧
        dq_wf σ.tcb (σ.g_assignedtasks c) (nx :: rest) ∧
        (σ.tcb t).task_state = TSTATE_TASK_INVALID) := by
    intro σ hσ hp
    rw [hpts, List.mem_append, List.mem_singleton] at hσ
    rcases hσ with hσ | hσ
    · rcases switch_points_remote t nx (tasklist_t.assigned c) s hme σ hσ with h | h | h
      · left
        rw [h]
        exact ⟨new_events_self _, hq, rfl⟩
      · rw [h] at hp
        exact absurd hp (by simp)
      · right; left
        rw [h]
        refine ⟨?_, hres.1, hres.2⟩
        rw [smp_remote_branch_trace t nx (tasklist_t.assigned c) s hme, new_events_append]
        rfl
    · subst hσ
      right; right
      refine ⟨?_, hfin, hinv⟩
      rw [smp_remote_trace t nx (tasklist_t.assigned c) s hme, new_events_append]
      rfl
  exact ⟨_, heq, hlast, hinv, hall⟩

/-- C13 as amended, on the example state: processor 0 removes task 20, the
head of the assigned list [20, 21] of processor 1. -/
theorem C13_smp_remote_unpaused_points_witness :
    dq_wf ex_smp.tcb (ex_smp.g_assignedtasks 1) [20, 21] ∧
    ∃ s2, SMP.sched_removereadytorun 0 20 ex_smp = some (false, s2) ∧
      (SMP.call_points 0 20 ex_smp).getLast? = some s2 ∧
      (s2.tcb 20).task_state = TSTATE_TASK_INVALID ∧
      ∀ σ ∈ SMP.call_points 0 20 ex_smp,
        cpu_paused 1 (new_events ex_smp.trace σ.trace) = false →
        (new_events ex_smp.trace σ.trace = [] ∧
          dq_wf σ.tcb (σ.g_assignedtasks 1) [20, 21] ∧
          (σ.tcb 20).task_state = (ex_smp.tcb 20).task_state) ∨
        ((new_events ex_smp.trace σ.trace).getLast? = some (sched_event.cpu_resume 1) ∧
          dq_wf σ.tcb (σ.g_assignedtasks 1) [21] ∧
          (σ.tcb 20).task_state = (ex_smp.tcb 20).task_state) ∨
        ((new_events ex_smp.trace σ.trace).getLast? =
            some (sched_event.state_store 20 TSTATE_TASK_INVALID) ∧
          dq_wf σ.tcb (σ.g_assignedtasks 1) [21] ∧
          (σ.tcb 20).task_state = TSTATE_TASK_INVALID) :=
  ⟨by decide, C13_smp_remote_unpaused_points ex_smp 1 20 21 [] 0
    (by decide) (by decide) (by decide)⟩

end NuttX


